import Mathlib

/-!
# Verification of src/sync_folders.py

A shallow embedding of the one-way folder synchronisation script
src/sync_folders.py and proofs about its reconciliation engine.

Modelling conventions:
* A filesystem entry is either a regular file, modelled as its byte content
  (a list of naturals) together with its modification time (os.st_mtime,
  a natural), or a directory, modelled as the association list of its
  children (os.listdir order is the list order; Python's filecmp sorts the
  listings, which only permutes the order in which entries of one category
  are processed and is irrelevant to every property proved here).
* An absolute path is the list of its components; os.path.join(p, n) is
  p ++ [n].
* The script mutates the replica tree in place, appends log lines, and
  increments three counters.  The embedding makes these effects explicit:
  compare_folders returns the replica subtree after the run, the list of
  emitted events (recursive-call visits, filesystem mutations, log
  records), and the counter increments of the run.
* filecmp.dircmp is modelled by the classification functions below,
  including its shallow file comparison: two regular files compare equal
  when their stat signatures (size, mtime) coincide, and are otherwise
  compared byte by byte (filecmp.cmp with shallow=True).
-/

namespace SyncFolders

mutual
/-- A filesystem entry: a regular file (byte content and mtime) or a
directory with an association list of named children. -/
inductive Entry : Type where
  | file (content : List Nat) (mtime : Nat)
  | dir (children : EntryList)

/-- The children of a directory: an association list from names to
entries, in listing order. -/
inductive EntryList : Type where
  | nil
  | cons (name : String) (e : Entry) (tail : EntryList)
end

/-- Look a name up in a directory listing (first occurrence). -/
def EntryList.lookup : EntryList → String → Option Entry
  | .nil, _ => none
  | .cons n e tl, m => if n = m then some e else tl.lookup m

/-- The names of a directory listing, in order (os.listdir). -/
def EntryList.names : EntryList → List String
  | .nil => []
  | .cons n _ tl => n :: tl.names

/-- Write an entry under a name: replace the first binding of the name,
or append a new binding if the name is absent. -/
def EntryList.set : EntryList → String → Entry → EntryList
  | .nil, n, e => .cons n e .nil
  | .cons m a tl, n, e => if m = n then .cons m e tl else .cons m a (tl.set n e)

/-- Remove every binding of a name from a directory listing. -/
def EntryList.remove : EntryList → String → EntryList
  | .nil, _ => .nil
  | .cons m a tl, n => if m = n then tl.remove n else .cons m a (tl.remove n)

/-- os.path.isdir on an entry. -/
def Entry.isDir : Entry → Bool
  | .file _ _ => false
  | .dir _ => true

mutual
/-- Well-formedness of an on-disk tree: every directory lists each name at
most once (a real directory cannot contain two entries of the same name). -/
def Entry.wf : Entry → Bool
  | .file _ _ => true
  | .dir cs => cs.wfChildren

/-- Well-formedness of a directory listing: names are distinct and every
child is well-formed. -/
def EntryList.wfChildren : EntryList → Bool
  | .nil => true
  | .cons n e tl => !(tl.names.contains n) && e.wf && tl.wfChildren
end

/-- filecmp.cmp with shallow=True on two regular files: equal when the
stat signatures (size, mtime) coincide; when the sizes differ the files
differ; otherwise (equal size, different mtime) the bytes are compared. -/
def cmpShallow (c1 : List Nat) (m1 : Nat) (c2 : List Nat) (m2 : Nat) : Bool :=
  if c1.length = c2.length ∧ m1 = m2 then true
  else if c1.length ≠ c2.length then false
  else c1 == c2

/-- filecmp.DEFAULT_IGNORES: dircmp is constructed with default arguments,
so phase0 filters both listings through this list before any
classification; entries with these names are invisible to the comparison. -/
def DEFAULT_IGNORES : List String :=
  ["RCS", "CVS", "tags", ".git", ".hg", ".bzr", "_darcs", "__pycache__"]

/-- filecmp.dircmp.common: the names present in both filtered listings, in
source listing order. -/
def common (sc rc : EntryList) : List String :=
  sc.names.filter (fun n =>
    rc.names.contains n && !(DEFAULT_IGNORES.contains n))

/-- filecmp.dircmp.left_only: the names present only in the (filtered)
source listing. -/
def left_only (sc rc : EntryList) : List String :=
  sc.names.filter (fun n =>
    !(rc.names.contains n) && !(DEFAULT_IGNORES.contains n))

/-- filecmp.dircmp.right_only: the names present only in the (filtered)
replica listing. -/
def right_only (sc rc : EntryList) : List String :=
  rc.names.filter (fun n =>
    !(sc.names.contains n) && !(DEFAULT_IGNORES.contains n))

/-- filecmp.dircmp.common_dirs: the common names that are directories on
both sides. -/
def common_dirs (sc rc : EntryList) : List String :=
  (common sc rc).filter (fun n =>
    match sc.lookup n, rc.lookup n with
    | some (.dir _), some (.dir _) => true
    | _, _ => false)

/-- filecmp.dircmp.common_files: the common names that are regular files on
both sides. -/
def common_files (sc rc : EntryList) : List String :=
  (common sc rc).filter (fun n =>
    match sc.lookup n, rc.lookup n with
    | some (.file _ _), some (.file _ _) => true
    | _, _ => false)

/-- filecmp.dircmp.common_funny: the common names whose stat types differ
(a directory on one side, a regular file on the other).  The script never
reads this attribute, so these entries are never acted on. -/
def common_funny (sc rc : EntryList) : List String :=
  (common sc rc).filter (fun n =>
    match sc.lookup n, rc.lookup n with
    | some (.dir _), some (.dir _) => false
    | some (.file _ _), some (.file _ _) => false
    | _, _ => true)

/-- filecmp.dircmp.diff_files: the common regular files whose shallow
comparison reports a difference. -/
def diff_files (sc rc : EntryList) : List String :=
  (common_files sc rc).filter (fun n =>
    match sc.lookup n, rc.lookup n with
    | some (.file c1 m1), some (.file c2 m2) => !cmpShallow c1 m1 c2 m2
    | _, _ => false)

/-- filecmp.dircmp.same_files: the common regular files whose shallow
comparison reports equality. -/
def same_files (sc rc : EntryList) : List String :=
  (common_files sc rc).filter (fun n =>
    match sc.lookup n, rc.lookup n with
    | some (.file c1 m1), some (.file c2 m2) => cmpShallow c1 m1 c2 m2
    | _, _ => false)

/-- The kind of a logged action: the first argument of write_log. -/
inductive ActKind : Type where
  | create
  | copy
  | delete
deriving DecidableEq, Repr

/-- One log record: an action kind and the absolute path written to the
log file and the console by write_log. -/
structure LogRecord : Type where
  kind : ActKind
  path : List String
deriving DecidableEq, Repr

/-- One filesystem mutation performed by the script, with the shutil / os
call that performs it. -/
inductive MutOp : Type where
  | copytree (src dest : List String)
  | copy2 (src destDir : List String)
  | rmtree (target : List String)
  | remove (target : List String)
deriving DecidableEq, Repr

/-- An observable event of a run: a recursive visit of a directory pair
(one call of compare_folders), a filesystem mutation, or a log record. -/
inductive Event : Type where
  | visit (srcPath replPath : List String)
  | mut (op : MutOp)
  | record (r : LogRecord)
deriving DecidableEq, Repr

/-- The three per-run counters of SyncObject. -/
structure Counters : Type where
  file_created_count : Nat
  file_copied_count : Nat
  file_deleted_count : Nat
deriving DecidableEq, Repr

/-- The zero counters (the state after the driver resets them). -/
def Counters.zero : Counters := ⟨0, 0, 0⟩

instance : Add Counters :=
  ⟨fun a b => ⟨a.file_created_count + b.file_created_count,
    a.file_copied_count + b.file_copied_count,
    a.file_deleted_count + b.file_deleted_count⟩⟩

/-- SyncObject.write_log: emit one log record (appended to the log file
and echoed to the console). -/
def write_log (type : ActKind) (file : List String) : Event :=
  Event.record ⟨type, file⟩

/-- SyncObject.copy_files: for each listed name, if the source entry is a
directory, shutil.copytree copies the whole subtree and one record and one
counter increment are emitted per immediate child of the source directory
(os.listdir(srcpath)); otherwise shutil.copy2 copies the file and one
record and one increment are emitted.  Returns the entries written into
the destination directory (in order), the emitted events, and the counter
increments.  A name absent from the source listing would make the real
script raise; the classification lists passed by compare_folders only
contain present names, and the model maps this unreachable branch to a
no-op. -/
def copy_files : List String → EntryList → List String → List String → Bool →
    List (String × Entry) × List Event × Counters
  | [], _, _, _, _ => ([], [], Counters.zero)
  | n :: rest, sc, src, dest, new =>
    let srcpath := src ++ [n]
    let step :=
      match sc.lookup n with
      | some (Entry.dir dch) =>
        ([(n, Entry.dir dch)],
         Event.mut (MutOp.copytree srcpath (dest ++ [n])) ::
           dch.names.map (fun f =>
             write_log (if new then .create else .copy) (srcpath ++ [f])),
         if new then (⟨dch.names.length, 0, 0⟩ : Counters) else ⟨0, dch.names.length, 0⟩)
      | some (Entry.file c m) =>
        ([(n, Entry.file c m)],
         [Event.mut (MutOp.copy2 srcpath dest),
          write_log (if new then .create else .copy) srcpath],
         if new then (⟨1, 0, 0⟩ : Counters) else ⟨0, 1, 0⟩)
      | none => ([], [], Counters.zero)
    let tail := copy_files rest sc src dest new
    (step.1 ++ tail.1, step.2.1 ++ tail.2.1, step.2.2 + tail.2.2)

/-- SyncObject.delete_files: for each listed name, if the target entry is a
directory, one record and one counter increment are emitted per immediate
child of the directory (os.listdir(srcpath)) and then shutil.rmtree
removes the subtree; otherwise os.remove deletes the file and one record
and one increment are emitted.  The caller removes the names from the
replica listing; this function returns the emitted events and counter
increments. -/
def delete_files : List String → EntryList → List String → List Event × Counters
  | [], _, _ => ([], Counters.zero)
  | n :: rest, rc, folder =>
    let srcpath := folder ++ [n]
    let step :=
      match rc.lookup n with
      | some (Entry.dir dch) =>
        (dch.names.map (fun f => write_log .delete (srcpath ++ [f]))
           ++ [Event.mut (MutOp.rmtree srcpath)],
         (⟨0, 0, dch.names.length⟩ : Counters))
      | some (Entry.file _ _) =>
        ([Event.mut (MutOp.remove srcpath), write_log .delete srcpath],
         (⟨0, 0, 1⟩ : Counters))
      | none => ([], Counters.zero)
    let tail := delete_files rest rc folder
    (step.1 ++ tail.1, step.2 + tail.2)

/-- Write a batch of entries into a directory listing, in order. -/
def EntryList.setAll (l : EntryList) (ws : List (String × Entry)) : EntryList :=
  ws.foldl (fun acc p => acc.set p.1 p.2) l

/-- Remove a batch of names from a directory listing, in order. -/
def EntryList.removeAll (l : EntryList) (ns : List String) : EntryList :=
  ns.foldl (fun acc n => acc.remove n) l

mutual
/-- SyncObject.compare_folders: one recursive reconciliation call on a
directory pair.  It classifies the pair with filecmp.dircmp, recurses into
the common subdirectories, copies the source-only entries (creation),
deletes the replica-only entries, and re-copies the differing files
(overwrite).  Returns the replica subtree after the call, the events of
the call (in execution order), and the counter increments.  On a
non-directory argument filecmp.dircmp raises; the claims are stated for
directory roots and the model maps that case to a no-op. -/
def compare_folders (s r : Entry) (src repl : List String) :
    Entry × List Event × Counters :=
  match s, r with
  | .dir sc, .dir rc =>
    let cds := common_dirs sc rc
    let phase1 :=
      if cds.isEmpty then ([], [], Counters.zero)
      else compare_common sc cds rc src repl
    let rc1 := rc.setAll phase1.1
    let lo := left_only sc rc
    let phase2 :=
      if lo.isEmpty then ([], [], Counters.zero)
      else copy_files lo sc src repl true
    let rc2 := rc1.setAll phase2.1
    let ro := right_only sc rc
    let phase3 :=
      if ro.isEmpty then ([], Counters.zero)
      else delete_files ro rc2 repl
    let rc3 := rc2.removeAll ro
    let df := diff_files sc rc
    let phase4 :=
      if df.isEmpty then ([], [], Counters.zero)
      else copy_files df sc src repl false
    let rc4 := rc3.setAll phase4.1
    (.dir rc4,
     Event.visit src repl ::
       (phase1.2.1 ++ phase2.2.1 ++ phase3.1 ++ phase4.2.1),
     phase1.2.2 + (phase2.2.2 + (phase3.2 + phase4.2.2)))
  | _, r => (r, [], Counters.zero)

/-- The loop over compare_obj.common_dirs inside compare_folders.  The
model walks the source listing and recurses exactly on the names that are
classified as common directories (the same calls, in the same order, as
the loop over common_dirs of the script, whose listings never repeat a
name).  Returns the updated subtrees to write back into the replica
listing, the events, and the counter increments. -/
def compare_common (walk : EntryList) (cds : List String) (rc : EntryList)
    (src repl : List String) :
    List (String × Entry) × List Event × Counters :=
  match walk with
  | .nil => ([], [], Counters.zero)
  | .cons n a tl =>
    if n ∈ cds then
      let head := compare_folders a ((rc.lookup n).getD (.dir .nil))
        (src ++ [n]) (repl ++ [n])
      let tail := compare_common tl cds rc src repl
      ((n, head.1) :: tail.1, head.2.1 ++ tail.2.1, head.2.2 + tail.2.2)
    else compare_common tl cds rc src repl
end

end SyncFolders

namespace SyncFolders

/-! ## Basic lemmas about listings -/

/-- Induction over a directory listing alone (the children entries are
treated as data). -/
@[induction_eliminator]
theorem EntryList.recList {motive : EntryList → Prop} (nil : motive .nil)
    (cons : ∀ (name : String) (e : Entry) (tail : EntryList),
      motive tail → motive (.cons name e tail)) : ∀ l, motive l
  | .nil => nil
  | .cons n e tl => cons n e tl (EntryList.recList nil cons tl)

theorem EntryList.lookup_set_self (l : EntryList) (n : String) (e : Entry) :
    (l.set n e).lookup n = some e := by
  induction l with
  | nil => simp [EntryList.set, EntryList.lookup]
  | cons m a tl ih =>
    by_cases h : m = n
    · subst h; simp [EntryList.set, EntryList.lookup]
    · simp [EntryList.set, EntryList.lookup, h, ih]

theorem EntryList.lookup_set_ne (l : EntryList) (m n : String) (e : Entry)
    (h : m ≠ n) : (l.set m e).lookup n = l.lookup n := by
  induction l with
  | nil => simp [EntryList.set, EntryList.lookup, h]
  | cons k a tl ih =>
    by_cases hk : k = m
    · subst hk; simp [EntryList.set, EntryList.lookup, h]
    · by_cases hkn : k = n
      · subst hkn; simp [EntryList.set, EntryList.lookup, hk]
      · simp [EntryList.set, EntryList.lookup, hk, hkn, ih]

theorem EntryList.lookup_remove_self (l : EntryList) (n : String) :
    (l.remove n).lookup n = none := by
  induction l with
  | nil => simp [EntryList.remove, EntryList.lookup]
  | cons m a tl ih =>
    by_cases h : m = n
    · simp [EntryList.remove, h, ih]
    · simp [EntryList.remove, EntryList.lookup, h, ih]

theorem EntryList.lookup_remove_ne (l : EntryList) (m n : String)
    (h : m ≠ n) : (l.remove m).lookup n = l.lookup n := by
  induction l with
  | nil => simp [EntryList.remove]
  | cons k a tl ih =>
    by_cases hk : k = m
    · subst hk; simp [EntryList.remove, EntryList.lookup, h, ih]
    · simp [EntryList.remove, EntryList.lookup, hk, ih]

theorem EntryList.names_remove (l : EntryList) (m : String) :
    (l.remove m).names = l.names.filter (fun x => x ≠ m) := by
  induction l with
  | nil => rfl
  | cons k a tl ih =>
    by_cases hk : k = m
    · subst hk; simp [EntryList.remove, EntryList.names, ih]
    · simp [EntryList.remove, EntryList.names, hk, ih]

theorem EntryList.mem_names_remove (l : EntryList) (m n : String) :
    n ∈ (l.remove m).names ↔ n ∈ l.names ∧ n ≠ m := by
  simp [EntryList.names_remove, List.mem_filter]

theorem EntryList.names_set (l : EntryList) (m : String) (e : Entry) :
    (l.set m e).names = if m ∈ l.names then l.names else l.names ++ [m] := by
  induction l with
  | nil => simp [EntryList.set, EntryList.names]
  | cons k a tl ih =>
    by_cases hk : k = m
    · subst hk; simp [EntryList.set, EntryList.names]
    · have hmk : ¬ m = k := fun h => hk h.symm
      by_cases hm : m ∈ tl.names
      · simp [EntryList.set, EntryList.names, hk, ih, hm]
      · simp [EntryList.set, EntryList.names, hk, ih, hm, hmk]

theorem EntryList.mem_names_set (l : EntryList) (m n : String) (e : Entry) :
    n ∈ (l.set m e).names ↔ n ∈ l.names ∨ n = m := by
  rw [EntryList.names_set]
  by_cases hm : m ∈ l.names
  · simp only [if_pos hm]
    constructor
    · exact fun h => Or.inl h
    · rintro (h | h)
      · exact h
      · subst h; exact hm
  · simp [if_neg hm]

theorem EntryList.lookup_isSome (l : EntryList) (n : String) :
    (l.lookup n).isSome ↔ n ∈ l.names := by
  induction l with
  | nil => simp [EntryList.lookup, EntryList.names]
  | cons m a tl ih =>
    by_cases h : m = n
    · subst h; simp [EntryList.lookup, EntryList.names]
    · simp only [EntryList.lookup, if_neg h, EntryList.names, List.mem_cons, ih]
      constructor
      · exact fun hn => Or.inr hn
      · rintro (hn | hn)
        · exact absurd hn.symm h
        · exact hn

theorem EntryList.lookup_eq_none (l : EntryList) (n : String) :
    l.lookup n = none ↔ n ∉ l.names := by
  rw [← EntryList.lookup_isSome, Option.not_isSome_iff_eq_none]

theorem EntryList.mem_names_of_lookup {l : EntryList} {n : String} {e : Entry}
    (h : l.lookup n = some e) : n ∈ l.names := by
  rw [← EntryList.lookup_isSome, h]; rfl

theorem EntryList.lookup_of_not_mem {l : EntryList} {n : String}
    (h : n ∉ l.names) : l.lookup n = none :=
  (EntryList.lookup_eq_none l n).mpr h

theorem EntryList.setAll_cons (l : EntryList) (p : String × Entry)
    (rest : List (String × Entry)) :
    l.setAll (p :: rest) = (l.set p.1 p.2).setAll rest := rfl

theorem EntryList.removeAll_cons (l : EntryList) (m : String)
    (rest : List String) :
    l.removeAll (m :: rest) = (l.remove m).removeAll rest := rfl

theorem EntryList.lookup_setAll_not_mem (l : EntryList)
    (ws : List (String × Entry)) (n : String) (h : n ∉ ws.map Prod.fst) :
    (l.setAll ws).lookup n = l.lookup n := by
  induction ws generalizing l with
  | nil => rfl
  | cons p rest ih =>
    simp only [List.map_cons, List.mem_cons] at h
    push_neg at h
    rw [EntryList.setAll_cons, ih _ h.2,
      EntryList.lookup_set_ne _ _ _ _ (fun hq => h.1 hq.symm)]

theorem EntryList.lookup_setAll_mem (l : EntryList)
    (ws : List (String × Entry)) (n : String) (e : Entry)
    (hnd : (ws.map Prod.fst).Nodup) (h : (n, e) ∈ ws) :
    (l.setAll ws).lookup n = some e := by
  induction ws generalizing l with
  | nil => cases h
  | cons p rest ih =>
    simp only [List.map_cons, List.nodup_cons] at hnd
    rw [EntryList.setAll_cons]
    rcases List.mem_cons.mp h with h | h
    · subst h
      rw [EntryList.lookup_setAll_not_mem _ _ _ hnd.1, EntryList.lookup_set_self]
    · exact ih _ hnd.2 h

theorem EntryList.mem_names_setAll (l : EntryList)
    (ws : List (String × Entry)) (n : String) :
    n ∈ (l.setAll ws).names ↔ n ∈ l.names ∨ n ∈ ws.map Prod.fst := by
  induction ws generalizing l with
  | nil => simp [EntryList.setAll]
  | cons p rest ih =>
    rw [EntryList.setAll_cons, ih, EntryList.mem_names_set]
    simp [or_assoc, or_comm, or_left_comm]

theorem EntryList.lookup_removeAll_not_mem (l : EntryList) (ns : List String)
    (n : String) (h : n ∉ ns) : (l.removeAll ns).lookup n = l.lookup n := by
  induction ns generalizing l with
  | nil => rfl
  | cons m rest ih =>
    simp only [List.mem_cons] at h
    push_neg at h
    rw [EntryList.removeAll_cons, ih _ h.2,
      EntryList.lookup_remove_ne _ _ _ (fun hq => h.1 hq.symm)]

theorem EntryList.lookup_removeAll_mem (l : EntryList) (ns : List String)
    (n : String) (h : n ∈ ns) : (l.removeAll ns).lookup n = none := by
  induction ns generalizing l with
  | nil => cases h
  | cons m rest ih =>
    rw [EntryList.removeAll_cons]
    rcases List.mem_cons.mp h with h | h
    · subst h
      by_cases hm : n ∈ rest
      · exact ih _ hm
      · rw [EntryList.lookup_removeAll_not_mem _ _ _ hm,
          EntryList.lookup_remove_self]
    · exact ih _ h

theorem EntryList.mem_names_removeAll (l : EntryList) (ns : List String)
    (n : String) : n ∈ (l.removeAll ns).names ↔ n ∈ l.names ∧ n ∉ ns := by
  induction ns generalizing l with
  | nil => simp [EntryList.removeAll]
  | cons m rest ih =>
    rw [EntryList.removeAll_cons, ih, EntryList.mem_names_remove]
    simp only [List.mem_cons]
    constructor
    · rintro ⟨⟨h1, h2⟩, h3⟩
      refine ⟨h1, ?_⟩
      rintro (h | h)
      · exact h2 h
      · exact h3 h
    · rintro ⟨h1, h2⟩
      push_neg at h2
      exact ⟨⟨h1, h2.1⟩, h2.2⟩

/-! ## Well-formedness lemmas -/

theorem EntryList.names_nodup_of_wf {cs : EntryList}
    (h : cs.wfChildren = true) : cs.names.Nodup := by
  induction cs with
  | nil => simp [EntryList.names]
  | cons n e tl ih =>
    simp only [EntryList.wfChildren, Bool.and_eq_true, Bool.not_eq_true'] at h
    refine List.nodup_cons.mpr ⟨?_, ih h.2⟩
    intro hn
    have hc := List.elem_iff.mpr hn
    rw [show tl.names.elem n = tl.names.contains n from rfl, h.1.1] at hc
    cases hc

theorem EntryList.wf_of_lookup {cs : EntryList} {n : String} {e : Entry}
    (hwf : cs.wfChildren = true) (h : cs.lookup n = some e) : e.wf = true := by
  induction cs with
  | nil => cases h
  | cons m a tl ih =>
    simp only [EntryList.wfChildren, Bool.and_eq_true] at hwf
    by_cases hm : m = n
    · subst hm
      have ha : a = e := by simpa [EntryList.lookup] using h
      subst ha
      exact hwf.1.2
    · simp only [EntryList.lookup, if_neg hm] at h
      exact ih hwf.2 h

end SyncFolders

namespace SyncFolders

/-! ## Classification lemmas -/

theorem mem_common {sc rc : EntryList} {n : String} :
    n ∈ common sc rc ↔
      (n ∈ sc.names ∧ n ∈ rc.names) ∧ n ∉ DEFAULT_IGNORES := by
  simp [common, List.mem_filter, List.elem_iff, and_assoc]

theorem mem_left_only {sc rc : EntryList} {n : String} :
    n ∈ left_only sc rc ↔
      (n ∈ sc.names ∧ n ∉ rc.names) ∧ n ∉ DEFAULT_IGNORES := by
  simp [left_only, List.mem_filter, List.elem_iff, and_assoc]

theorem mem_right_only {sc rc : EntryList} {n : String} :
    n ∈ right_only sc rc ↔
      (n ∈ rc.names ∧ n ∉ sc.names) ∧ n ∉ DEFAULT_IGNORES := by
  simp [right_only, List.mem_filter, List.elem_iff, and_assoc]

theorem mem_common_dirs {sc rc : EntryList} {n : String} :
    n ∈ common_dirs sc rc ↔
      (∃ a b, sc.lookup n = some (.dir a) ∧ rc.lookup n = some (.dir b)) ∧
        n ∉ DEFAULT_IGNORES := by
  simp only [common_dirs, List.mem_filter, mem_common]
  constructor
  · rintro ⟨⟨⟨h1, h2⟩, hig⟩, h3⟩
    refine ⟨?_, hig⟩
    rcases hs : sc.lookup n with _ | (⟨c1, m1⟩ | ch1) <;>
      rcases hr : rc.lookup n with _ | (⟨c2, m2⟩ | ch2) <;>
        rw [hs, hr] at h3 <;> simp at h3
    exact ⟨ch1, ch2, rfl, rfl⟩
  · rintro ⟨⟨a, b, ha, hb⟩, hig⟩
    refine ⟨⟨⟨EntryList.mem_names_of_lookup ha,
      EntryList.mem_names_of_lookup hb⟩, hig⟩, ?_⟩
    rw [ha, hb]

theorem mem_common_files {sc rc : EntryList} {n : String} :
    n ∈ common_files sc rc ↔
      (∃ c1 m1 c2 m2, sc.lookup n = some (.file c1 m1) ∧
        rc.lookup n = some (.file c2 m2)) ∧ n ∉ DEFAULT_IGNORES := by
  simp only [common_files, List.mem_filter, mem_common]
  constructor
  · rintro ⟨⟨⟨h1, h2⟩, hig⟩, h3⟩
    refine ⟨?_, hig⟩
    rcases hs : sc.lookup n with _ | (⟨c1, m1⟩ | ch1) <;>
      rcases hr : rc.lookup n with _ | (⟨c2, m2⟩ | ch2) <;>
        rw [hs, hr] at h3 <;> simp at h3
    exact ⟨c1, m1, c2, m2, rfl, rfl⟩
  · rintro ⟨⟨c1, m1, c2, m2, ha, hb⟩, hig⟩
    refine ⟨⟨⟨EntryList.mem_names_of_lookup ha,
      EntryList.mem_names_of_lookup hb⟩, hig⟩, ?_⟩
    rw [ha, hb]

theorem mem_diff_files {sc rc : EntryList} {n : String} :
    n ∈ diff_files sc rc ↔
      (∃ c1 m1 c2 m2, sc.lookup n = some (.file c1 m1) ∧
        rc.lookup n = some (.file c2 m2) ∧
          cmpShallow c1 m1 c2 m2 = false) ∧ n ∉ DEFAULT_IGNORES := by
  simp only [diff_files, List.mem_filter, mem_common_files]
  constructor
  · rintro ⟨⟨⟨c1, m1, c2, m2, ha, hb⟩, hig⟩, h3⟩
    rw [ha, hb] at h3
    simp only [Bool.not_eq_true'] at h3
    exact ⟨⟨c1, m1, c2, m2, ha, hb, h3⟩, hig⟩
  · rintro ⟨⟨c1, m1, c2, m2, ha, hb, hc⟩, hig⟩
    refine ⟨⟨⟨c1, m1, c2, m2, ha, hb⟩, hig⟩, ?_⟩
    rw [ha, hb]
    simp [hc]

theorem mem_same_files {sc rc : EntryList} {n : String} :
    n ∈ same_files sc rc ↔
      (∃ c1 m1 c2 m2, sc.lookup n = some (.file c1 m1) ∧
        rc.lookup n = some (.file c2 m2) ∧
          cmpShallow c1 m1 c2 m2 = true) ∧ n ∉ DEFAULT_IGNORES := by
  simp only [same_files, List.mem_filter, mem_common_files]
  constructor
  · rintro ⟨⟨⟨c1, m1, c2, m2, ha, hb⟩, hig⟩, h3⟩
    rw [ha, hb] at h3
    exact ⟨⟨c1, m1, c2, m2, ha, hb, h3⟩, hig⟩
  · rintro ⟨⟨c1, m1, c2, m2, ha, hb, hc⟩, hig⟩
    refine ⟨⟨⟨c1, m1, c2, m2, ha, hb⟩, hig⟩, ?_⟩
    rw [ha, hb]
    exact hc

theorem mem_common_funny {sc rc : EntryList} {n : String} :
    n ∈ common_funny sc rc ↔
      (∃ a b, sc.lookup n = some a ∧ rc.lookup n = some b ∧
        a.isDir ≠ b.isDir) ∧ n ∉ DEFAULT_IGNORES := by
  simp only [common_funny, List.mem_filter, mem_common]
  constructor
  · rintro ⟨⟨⟨h1, h2⟩, hig⟩, h3⟩
    refine ⟨?_, hig⟩
    rw [← EntryList.lookup_isSome] at h1 h2
    rcases hs : sc.lookup n with _ | (⟨c1, m1⟩ | ch1) <;> rw [hs] at h1 <;>
      try cases h1
    all_goals
      rcases hr : rc.lookup n with _ | (⟨c2, m2⟩ | ch2) <;> rw [hr] at h2 <;>
        try cases h2
    all_goals rw [hs, hr] at h3
    all_goals simp only [Entry.isDir] at h3 ⊢
    · cases h3
    · exact ⟨_, _, rfl, rfl, by simp [Entry.isDir]⟩
    · exact ⟨_, _, rfl, rfl, by simp [Entry.isDir]⟩
    · cases h3
  · rintro ⟨⟨a, b, ha, hb, hab⟩, hig⟩
    refine ⟨⟨⟨EntryList.mem_names_of_lookup ha,
      EntryList.mem_names_of_lookup hb⟩, hig⟩, ?_⟩
    rw [ha, hb]
    rcases a with ⟨c1, m1⟩ | ch1 <;> rcases b with ⟨c2, m2⟩ | ch2 <;>
      simp [Entry.isDir] at hab ⊢

theorem cmpShallow_iff {c1 c2 : List Nat} {m1 m2 : Nat} :
    cmpShallow c1 m1 c2 m2 = true ↔
      (c1.length = c2.length ∧ m1 = m2) ∨ c1 = c2 := by
  unfold cmpShallow
  by_cases h1 : c1.length = c2.length ∧ m1 = m2
  · simp [h1]
  · simp only [if_neg h1]
    by_cases h2 : c1.length = c2.length
    · simp only [ne_eq, h2, not_true_eq_false, if_false, beq_iff_eq]
      tauto
    · simp only [ne_eq, h2, not_false_eq_true, if_true]
      constructor
      · intro h; cases h
      · rintro (⟨h, _⟩ | h)
        · exact h.elim
        · exact absurd (congrArg List.length h) h2

theorem cmpShallow_of_eq {c : List Nat} {m1 m2 : Nat} :
    cmpShallow c m1 c m2 = true := cmpShallow_iff.mpr (Or.inr rfl)

end SyncFolders

namespace SyncFolders

/-! ## Unfolding the reconciliation run

The body of compare_folders, decomposed into its four phases.  The phaseN
abbreviations name the intermediate values of the let-bindings of
compare_folders; the ite lemmas discharge the (semantically redundant)
non-emptiness guards of the script. -/

/-- Phase 1 of a compare_folders call: recursion into the common
subdirectories. -/
def phase1 (sc rc : EntryList) (src repl : List String) :
    List (String × Entry) × List Event × Counters :=
  compare_common sc (common_dirs sc rc) rc src repl

/-- The replica listing after phase 1. -/
def rcAfter1 (sc rc : EntryList) (src repl : List String) : EntryList :=
  rc.setAll (phase1 sc rc src repl).1

/-- Phase 2 of a compare_folders call: copying the source-only entries. -/
def phase2 (sc rc : EntryList) (src repl : List String) :
    List (String × Entry) × List Event × Counters :=
  copy_files (left_only sc rc) sc src repl true

/-- The replica listing after phase 2. -/
def rcAfter2 (sc rc : EntryList) (src repl : List String) : EntryList :=
  (rcAfter1 sc rc src repl).setAll (phase2 sc rc src repl).1

/-- Phase 3 of a compare_folders call: deleting the replica-only entries. -/
def phase3 (sc rc : EntryList) (src repl : List String) :
    List Event × Counters :=
  delete_files (right_only sc rc) (rcAfter2 sc rc src repl) repl

/-- The replica listing after phase 3. -/
def rcAfter3 (sc rc : EntryList) (src repl : List String) : EntryList :=
  (rcAfter2 sc rc src repl).removeAll (right_only sc rc)

/-- Phase 4 of a compare_folders call: re-copying the differing files. -/
def phase4 (sc rc : EntryList) (src repl : List String) :
    List (String × Entry) × List Event × Counters :=
  copy_files (diff_files sc rc) sc src repl false

/-- The replica listing at the end of a compare_folders call. -/
def rcAfter4 (sc rc : EntryList) (src repl : List String) : EntryList :=
  (rcAfter3 sc rc src repl).setAll (phase4 sc rc src repl).1

theorem compare_common_cds_nil (walk rc : EntryList) (src repl : List String) :
    compare_common walk [] rc src repl = ([], [], Counters.zero) := by
  induction walk with
  | nil => rfl
  | cons n a tl ih => simp [compare_common, ih]

theorem ite_isEmpty_common (walk : EntryList) (cds : List String)
    (rc : EntryList) (src repl : List String) :
    (if cds.isEmpty then (([], [], Counters.zero) :
        List (String × Entry) × List Event × Counters)
      else compare_common walk cds rc src repl) =
      compare_common walk cds rc src repl := by
  cases cds with
  | nil => simp [compare_common_cds_nil]
  | cons c cs => simp

theorem ite_isEmpty_copy (ns : List String) (sc : EntryList)
    (src dest : List String) (new : Bool) :
    (if ns.isEmpty then (([], [], Counters.zero) :
        List (String × Entry) × List Event × Counters)
      else copy_files ns sc src dest new) = copy_files ns sc src dest new := by
  cases ns with
  | nil => simp [copy_files]
  | cons c cs => simp

theorem ite_isEmpty_delete (ns : List String) (rc : EntryList)
    (folder : List String) :
    (if ns.isEmpty then (([], Counters.zero) : List Event × Counters)
      else delete_files ns rc folder) = delete_files ns rc folder := by
  cases ns with
  | nil => simp [delete_files]
  | cons c cs => simp

/-- The compare_folders equation on a directory pair, with the redundant
non-emptiness guards discharged. -/
theorem compare_folders_dir (sc rc : EntryList) (src repl : List String) :
    compare_folders (.dir sc) (.dir rc) src repl =
      (.dir (rcAfter4 sc rc src repl),
       Event.visit src repl ::
         ((phase1 sc rc src repl).2.1 ++ (phase2 sc rc src repl).2.1 ++
           (phase3 sc rc src repl).1 ++ (phase4 sc rc src repl).2.1),
       (phase1 sc rc src repl).2.2 +
         ((phase2 sc rc src repl).2.2 +
           ((phase3 sc rc src repl).2 + (phase4 sc rc src repl).2.2))) := by
  simp only [compare_folders, ite_isEmpty_common, ite_isEmpty_copy,
    ite_isEmpty_delete]
  simp only [phase1, rcAfter1, phase2, rcAfter2, phase3, rcAfter3, phase4,
    rcAfter4]

theorem compare_folders_file (c : List Nat) (m : Nat) (r : Entry)
    (src repl : List String) :
    compare_folders (.file c m) r src repl = (r, [], Counters.zero) := by
  cases r <;> rfl

theorem compare_folders_dir_file (sc : EntryList) (c : List Nat) (m : Nat)
    (src repl : List String) :
    compare_folders (.dir sc) (.file c m) src repl =
      (.file c m, [], Counters.zero) := rfl

theorem compare_common_cons_mem (n : String) (a : Entry) (tl : EntryList)
    (cds : List String) (rc : EntryList) (src repl : List String)
    (h : n ∈ cds) :
    compare_common (.cons n a tl) cds rc src repl =
      (((n, (compare_folders a ((rc.lookup n).getD (.dir .nil))
          (src ++ [n]) (repl ++ [n])).1) ::
        (compare_common tl cds rc src repl).1),
       (compare_folders a ((rc.lookup n).getD (.dir .nil))
          (src ++ [n]) (repl ++ [n])).2.1 ++
         (compare_common tl cds rc src repl).2.1,
       (compare_folders a ((rc.lookup n).getD (.dir .nil))
          (src ++ [n]) (repl ++ [n])).2.2 +
         (compare_common tl cds rc src repl).2.2) := by
  simp [compare_common, h]

theorem compare_common_cons_not_mem (n : String) (a : Entry) (tl : EntryList)
    (cds : List String) (rc : EntryList) (src repl : List String)
    (h : n ∉ cds) :
    compare_common (.cons n a tl) cds rc src repl =
      compare_common tl cds rc src repl := by
  simp [compare_common, h]

theorem Counters.add_def (a b : Counters) :
    a + b = ⟨a.file_created_count + b.file_created_count,
      a.file_copied_count + b.file_copied_count,
      a.file_deleted_count + b.file_deleted_count⟩ := rfl

theorem Counters.zero_add (a : Counters) : Counters.zero + a = a := by
  cases a; simp [Counters.add_def, Counters.zero]

theorem Counters.add_zero (a : Counters) : a + Counters.zero = a := by
  cases a; simp [Counters.add_def, Counters.zero]

end SyncFolders

namespace SyncFolders

/-! ## What each phase writes -/

theorem copy_files_fst (ns : List String) (sc : EntryList)
    (src dest : List String) (new : Bool) :
    (copy_files ns sc src dest new).1.map Prod.fst =
      ns.filter (fun n => (sc.lookup n).isSome) := by
  induction ns with
  | nil => rfl
  | cons n rest ih =>
    rcases h : sc.lookup n with _ | (⟨c, m⟩ | dch) <;>
      simp [copy_files, h, ih]

theorem copy_files_writes_mem {ns : List String} {sc : EntryList}
    {src dest : List String} {new : Bool} {n : String} {e : Entry}
    (hn : n ∈ ns) (he : sc.lookup n = some e) :
    (n, e) ∈ (copy_files ns sc src dest new).1 := by
  induction ns with
  | nil => cases hn
  | cons m rest ih =>
    rcases List.mem_cons.mp hn with h | h
    · subst h
      rcases e with ⟨c, mt⟩ | dch <;> simp [copy_files, he]
    · have := ih h
      rcases hm : sc.lookup m with _ | (⟨c, mt⟩ | dch) <;>
        simp [copy_files, hm, this]

theorem phase1_fst (walk : EntryList) (cds : List String) (rc : EntryList)
    (src repl : List String) :
    ((compare_common walk cds rc src repl).1).map Prod.fst =
      walk.names.filter (fun n => decide (n ∈ cds)) := by
  induction walk with
  | nil => rfl
  | cons n a tl ih =>
    by_cases h : n ∈ cds
    · rw [compare_common_cons_mem _ _ _ _ _ _ _ h]
      simp [EntryList.names, h, ih]
    · rw [compare_common_cons_not_mem _ _ _ _ _ _ _ h]
      simp [EntryList.names, h, ih]

theorem phase1_mem {walk : EntryList} {cds : List String} {rc : EntryList}
    {src repl : List String} {n : String} {a : Entry}
    (hl : walk.lookup n = some a) (hc : n ∈ cds) :
    (n, (compare_folders a ((rc.lookup n).getD (.dir .nil))
        (src ++ [n]) (repl ++ [n])).1) ∈
      (compare_common walk cds rc src repl).1 := by
  induction walk with
  | nil => cases hl
  | cons m b tl ih =>
    by_cases hm : m = n
    · subst hm
      have hb : b = a := by simpa [EntryList.lookup] using hl
      subst hb
      rw [compare_common_cons_mem _ _ _ _ _ _ _ hc]
      exact List.mem_cons_self _ _
    · simp only [EntryList.lookup, if_neg hm] at hl
      by_cases hcm : m ∈ cds
      · rw [compare_common_cons_mem _ _ _ _ _ _ _ hcm]
        exact List.mem_cons_of_mem _ (ih hl)
      · rw [compare_common_cons_not_mem _ _ _ _ _ _ _ hcm]
        exact ih hl

/-! ## Category housekeeping -/

theorem common_dirs_sub_src {sc rc : EntryList} {n : String}
    (h : n ∈ common_dirs sc rc) : n ∈ sc.names := by
  rcases mem_common_dirs.mp h with ⟨⟨a, b, ha, hb⟩, -⟩
  exact EntryList.mem_names_of_lookup ha

theorem common_dirs_sub_repl {sc rc : EntryList} {n : String}
    (h : n ∈ common_dirs sc rc) : n ∈ rc.names := by
  rcases mem_common_dirs.mp h with ⟨⟨a, b, ha, hb⟩, -⟩
  exact EntryList.mem_names_of_lookup hb

theorem diff_files_sub_src {sc rc : EntryList} {n : String}
    (h : n ∈ diff_files sc rc) : n ∈ sc.names := by
  rcases mem_diff_files.mp h with ⟨⟨c1, m1, c2, m2, ha, hb, hc⟩, -⟩
  exact EntryList.mem_names_of_lookup ha

theorem diff_files_sub_repl {sc rc : EntryList} {n : String}
    (h : n ∈ diff_files sc rc) : n ∈ rc.names := by
  rcases mem_diff_files.mp h with ⟨⟨c1, m1, c2, m2, ha, hb, hc⟩, -⟩
  exact EntryList.mem_names_of_lookup hb

theorem left_only_nodup {sc : EntryList} (rc : EntryList)
    (h : sc.wfChildren = true) : (left_only sc rc).Nodup :=
  (EntryList.names_nodup_of_wf h).filter _

theorem right_only_nodup (sc : EntryList) {rc : EntryList}
    (h : rc.wfChildren = true) : (right_only sc rc).Nodup :=
  (EntryList.names_nodup_of_wf h).filter _

theorem diff_files_nodup {sc : EntryList} (rc : EntryList)
    (h : sc.wfChildren = true) : (diff_files sc rc).Nodup :=
  (((EntryList.names_nodup_of_wf h).filter _).filter _).filter _

/-! ## The replica listing at the end of a run, name by name -/

theorem lookup_rcAfter1_not_cds {sc rc : EntryList} {src repl : List String}
    {n : String} (h : n ∉ common_dirs sc rc) :
    (rcAfter1 sc rc src repl).lookup n = rc.lookup n := by
  apply EntryList.lookup_setAll_not_mem
  rw [phase1]
  rw [phase1_fst]
  simp only [List.mem_filter, decide_eq_true_eq]
  rintro ⟨-, hc⟩
  exact h hc

theorem lookup_rcAfter2_frame {sc rc : EntryList} {src repl : List String}
    {n : String} (h1 : n ∉ common_dirs sc rc) (h2 : n ∉ left_only sc rc) :
    (rcAfter2 sc rc src repl).lookup n = rc.lookup n := by
  rw [rcAfter2, EntryList.lookup_setAll_not_mem, lookup_rcAfter1_not_cds h1]
  rw [phase2, copy_files_fst]
  simp only [List.mem_filter]
  rintro ⟨hc, -⟩
  exact h2 hc

theorem lookup_rcAfter4_frame {sc rc : EntryList} {src repl : List String}
    {n : String} (h1 : n ∉ common_dirs sc rc) (h2 : n ∉ left_only sc rc)
    (h3 : n ∉ right_only sc rc) (h4 : n ∉ diff_files sc rc) :
    (rcAfter4 sc rc src repl).lookup n = rc.lookup n := by
  rw [rcAfter4, EntryList.lookup_setAll_not_mem, rcAfter3,
    EntryList.lookup_removeAll_not_mem _ _ _ h3, lookup_rcAfter2_frame h1 h2]
  rw [phase4, copy_files_fst]
  simp only [List.mem_filter]
  rintro ⟨hc, -⟩
  exact h4 hc

theorem lookup_rcAfter4_common_dirs {sc rc : EntryList}
    {src repl : List String} {n : String} {a b : Entry}
    (hwf : sc.wfChildren = true)
    (hcd : n ∈ common_dirs sc rc)
    (ha : sc.lookup n = some a) (hb : rc.lookup n = some b) :
    (rcAfter4 sc rc src repl).lookup n =
      some ((compare_folders a b (src ++ [n]) (repl ++ [n])).1) := by
  have hlo : n ∉ left_only sc rc := by
    rw [mem_left_only]
    rintro ⟨⟨-, hr⟩, -⟩
    exact hr (common_dirs_sub_repl hcd)
  have hro : n ∉ right_only sc rc := by
    rw [mem_right_only]
    rintro ⟨⟨-, hs⟩, -⟩
    exact hs (common_dirs_sub_src hcd)
  have hdf : n ∉ diff_files sc rc := by
    intro hd
    rcases mem_diff_files.mp hd with ⟨⟨c1, m1, c2, m2, ha2, hb2, -⟩, -⟩
    rcases mem_common_dirs.mp hcd with ⟨⟨a2, b2, ha3, hb3⟩, -⟩
    rw [ha2] at ha3
    cases ha3
  rw [rcAfter4, EntryList.lookup_setAll_not_mem, rcAfter3,
    EntryList.lookup_removeAll_not_mem _ _ _ hro, rcAfter2,
    EntryList.lookup_setAll_not_mem, rcAfter1]
  · apply EntryList.lookup_setAll_mem
    · rw [phase1, phase1_fst]
      exact (EntryList.names_nodup_of_wf hwf).filter _
    · rw [phase1]
      have := @phase1_mem _ (common_dirs sc rc) rc src repl _ _ ha hcd
      rwa [hb] at this
  · rw [phase2, copy_files_fst]
    simp only [List.mem_filter]
    rintro ⟨hc, -⟩
    exact hlo hc
  · rw [phase4, copy_files_fst]
    simp only [List.mem_filter]
    rintro ⟨hc, -⟩
    exact hdf hc

theorem lookup_rcAfter4_left_only {sc rc : EntryList}
    {src repl : List String} {n : String} {e : Entry}
    (hwf : sc.wfChildren = true)
    (hlo : n ∈ left_only sc rc) (he : sc.lookup n = some e) :
    (rcAfter4 sc rc src repl).lookup n = some e := by
  have hnr : n ∉ rc.names := (mem_left_only.mp hlo).1.2
  have hcd : n ∉ common_dirs sc rc := fun h => hnr (common_dirs_sub_repl h)
  have hro : n ∉ right_only sc rc := fun h => hnr (mem_right_only.mp h).1.1
  have hdf : n ∉ diff_files sc rc := fun h => hnr (diff_files_sub_repl h)
  rw [rcAfter4, EntryList.lookup_setAll_not_mem, rcAfter3,
    EntryList.lookup_removeAll_not_mem _ _ _ hro, rcAfter2]
  · apply EntryList.lookup_setAll_mem
    · rw [phase2, copy_files_fst]
      exact (left_only_nodup rc hwf).filter _
    · rw [phase2]
      exact copy_files_writes_mem hlo he
  · rw [phase4, copy_files_fst]
    simp only [List.mem_filter]
    rintro ⟨hc, -⟩
    exact hdf hc

theorem lookup_rcAfter4_right_only {sc rc : EntryList}
    {src repl : List String} {n : String}
    (hro : n ∈ right_only sc rc) :
    (rcAfter4 sc rc src repl).lookup n = none := by
  have hns : n ∉ sc.names := (mem_right_only.mp hro).1.2
  have hdf : n ∉ diff_files sc rc := fun h => hns (diff_files_sub_src h)
  rw [rcAfter4, EntryList.lookup_setAll_not_mem, rcAfter3,
    EntryList.lookup_removeAll_mem _ _ _ hro]
  rw [phase4, copy_files_fst]
  simp only [List.mem_filter]
  rintro ⟨hc, -⟩
  exact hdf hc

theorem lookup_rcAfter4_diff_files {sc rc : EntryList}
    {src repl : List String} {n : String} {e : Entry}
    (hwf : sc.wfChildren = true)
    (hdf : n ∈ diff_files sc rc) (he : sc.lookup n = some e) :
    (rcAfter4 sc rc src repl).lookup n = some e := by
  apply EntryList.lookup_setAll_mem
  · rw [phase4, copy_files_fst]
    exact (diff_files_nodup rc hwf).filter _
  · rw [phase4]
    exact copy_files_writes_mem hdf he

set_option maxHeartbeats 1000000 in
/-- Name membership in the final replica listing: the non-ignored source
names together with the replica names that were not classified
replica-only (in particular every ignored replica name survives, and an
ignored source-only name is never created). -/
theorem mem_names_rcAfter4 {sc rc : EntryList} {src repl : List String}
    {n : String} :
    n ∈ (rcAfter4 sc rc src repl).names ↔
      (n ∈ sc.names ∧ n ∉ DEFAULT_IGNORES) ∨
        (n ∈ rc.names ∧ n ∉ right_only sc rc) := by
  rw [rcAfter4, EntryList.mem_names_setAll, rcAfter3,
    EntryList.mem_names_removeAll, rcAfter2, EntryList.mem_names_setAll,
    rcAfter1, EntryList.mem_names_setAll]
  rw [phase1, phase1_fst, phase2, phase4, copy_files_fst, copy_files_fst]
  have hds : n ∈ diff_files sc rc → n ∈ sc.names := diff_files_sub_src
  have hdr : n ∈ diff_files sc rc → n ∈ rc.names := diff_files_sub_repl
  have hdi : n ∈ diff_files sc rc → n ∉ DEFAULT_IGNORES :=
    fun h => (mem_diff_files.mp h).2
  have hcs : n ∈ common_dirs sc rc → n ∈ sc.names := common_dirs_sub_src
  have hcr : n ∈ common_dirs sc rc → n ∈ rc.names := common_dirs_sub_repl
  have hci : n ∈ common_dirs sc rc → n ∉ DEFAULT_IGNORES :=
    fun h => (mem_common_dirs.mp h).2
  simp only [List.mem_filter, decide_eq_true_eq, mem_right_only,
    mem_left_only, EntryList.lookup_isSome]
  tauto

end SyncFolders

namespace SyncFolders

/-! ## Claim C4: the classification partition -/

/-- Claim C4, counterexample: when both directories contain the same
regular file (here a byte-identical a.txt on both sides), the file is
classified into none of the four sets, so the union of the four
classification sets is strictly smaller than the union of the two entry
name sets.  The claimed partition equality is therefore false. -/
theorem claim_C4_counterexample :
    ¬ (∀ n : String,
      (n ∈ common_dirs (EntryList.cons "a" (Entry.file [0] 0) .nil)
          (EntryList.cons "a" (Entry.file [0] 0) .nil) ∨
       n ∈ left_only (EntryList.cons "a" (Entry.file [0] 0) .nil)
          (EntryList.cons "a" (Entry.file [0] 0) .nil) ∨
       n ∈ right_only (EntryList.cons "a" (Entry.file [0] 0) .nil)
          (EntryList.cons "a" (Entry.file [0] 0) .nil) ∨
       n ∈ diff_files (EntryList.cons "a" (Entry.file [0] 0) .nil)
          (EntryList.cons "a" (Entry.file [0] 0) .nil)) ↔
      (n ∈ (EntryList.cons "a" (Entry.file [0] 0) .nil).names ∨
       n ∈ (EntryList.cons "a" (Entry.file [0] 0) .nil).names)) := by
  intro h
  have h2 := (h "a").mpr (Or.inl (List.mem_cons_self _ _))
  have e1 : common_dirs (EntryList.cons "a" (Entry.file [0] 0) .nil)
      (EntryList.cons "a" (Entry.file [0] 0) .nil) = [] := rfl
  have e2 : left_only (EntryList.cons "a" (Entry.file [0] 0) .nil)
      (EntryList.cons "a" (Entry.file [0] 0) .nil) = [] := rfl
  have e3 : right_only (EntryList.cons "a" (Entry.file [0] 0) .nil)
      (EntryList.cons "a" (Entry.file [0] 0) .nil) = [] := rfl
  have e4 : diff_files (EntryList.cons "a" (Entry.file [0] 0) .nil)
      (EntryList.cons "a" (Entry.file [0] 0) .nil) = [] := rfl
  rw [e1, e2, e3, e4] at h2
  simp at h2

/-- Claim C4, amended: the four classification sets are pairwise disjoint,
and their union is the union of the two directories' entry names MINUS the
names on filecmp's default ignore list (which dircmp filters from both
listings before classifying), MINUS the common names classified as
identical files (same_files) and the common names of mismatched type
(common_funny), which the script leaves unclassified and untouched. -/
theorem claim_C4_amended (sc rc : EntryList) :
    ((common_dirs sc rc).Disjoint (left_only sc rc) ∧
     (common_dirs sc rc).Disjoint (right_only sc rc) ∧
     (common_dirs sc rc).Disjoint (diff_files sc rc) ∧
     (left_only sc rc).Disjoint (right_only sc rc) ∧
     (left_only sc rc).Disjoint (diff_files sc rc) ∧
     (right_only sc rc).Disjoint (diff_files sc rc)) ∧
    (∀ n : String,
      (n ∈ common_dirs sc rc ∨ n ∈ left_only sc rc ∨
       n ∈ right_only sc rc ∨ n ∈ diff_files sc rc) ↔
      ((n ∈ sc.names ∨ n ∈ rc.names) ∧ n ∉ DEFAULT_IGNORES ∧
       n ∉ same_files sc rc ∧ n ∉ common_funny sc rc)) := by
  constructor
  · refine ⟨?_, ?_, ?_, ?_, ?_, ?_⟩
    · intro n h1 h2
      exact (mem_left_only.mp h2).1.2 (common_dirs_sub_repl h1)
    · intro n h1 h2
      exact (mem_right_only.mp h2).1.2 (common_dirs_sub_src h1)
    · intro n h1 h2
      rcases mem_common_dirs.mp h1 with ⟨⟨a, b, ha, hb⟩, -⟩
      rcases mem_diff_files.mp h2 with ⟨⟨c1, m1, c2, m2, ha2, hb2, -⟩, -⟩
      rw [ha] at ha2
      cases ha2
    · intro n h1 h2
      exact (mem_right_only.mp h2).1.2 (mem_left_only.mp h1).1.1
    · intro n h1 h2
      exact (mem_left_only.mp h1).1.2 (diff_files_sub_repl h2)
    · intro n h1 h2
      exact (mem_right_only.mp h1).1.2 (diff_files_sub_src h2)
  · intro n
    constructor
    · rintro (h | h | h | h)
      · rcases mem_common_dirs.mp h with ⟨⟨a, b, ha, hb⟩, hig⟩
        refine ⟨Or.inl (EntryList.mem_names_of_lookup ha), hig, ?_, ?_⟩
        · intro hs
          rcases mem_same_files.mp hs with ⟨⟨c1, m1, c2, m2, ha2, -, -⟩, -⟩
          rw [ha] at ha2
          cases ha2
        · intro hf
          rcases mem_common_funny.mp hf with ⟨⟨a2, b2, ha2, hb2, hab⟩, -⟩
          rw [ha] at ha2
          rw [hb] at hb2
          cases ha2
          cases hb2
          exact hab rfl
      · refine ⟨Or.inl (mem_left_only.mp h).1.1, (mem_left_only.mp h).2,
          ?_, ?_⟩
        · intro hs
          rcases mem_same_files.mp hs with ⟨⟨c1, m1, c2, m2, -, hb2, -⟩, -⟩
          exact (mem_left_only.mp h).1.2 (EntryList.mem_names_of_lookup hb2)
        · intro hf
          rcases mem_common_funny.mp hf with ⟨⟨a2, b2, -, hb2, -⟩, -⟩
          exact (mem_left_only.mp h).1.2 (EntryList.mem_names_of_lookup hb2)
      · refine ⟨Or.inr (mem_right_only.mp h).1.1, (mem_right_only.mp h).2,
          ?_, ?_⟩
        · intro hs
          rcases mem_same_files.mp hs with ⟨⟨c1, m1, c2, m2, ha2, -, -⟩, -⟩
          exact (mem_right_only.mp h).1.2 (EntryList.mem_names_of_lookup ha2)
        · intro hf
          rcases mem_common_funny.mp hf with ⟨⟨a2, b2, ha2, -, -⟩, -⟩
          exact (mem_right_only.mp h).1.2 (EntryList.mem_names_of_lookup ha2)
      · rcases mem_diff_files.mp h with ⟨⟨c1, m1, c2, m2, ha2, hb2, hc⟩, hig⟩
        refine ⟨Or.inl (EntryList.mem_names_of_lookup ha2), hig, ?_, ?_⟩
        · intro hs
          rcases mem_same_files.mp hs with ⟨⟨d1, k1, d2, k2, ha3, hb3, hc2⟩, -⟩
          rw [ha2] at ha3
          rw [hb2] at hb3
          cases ha3
          cases hb3
          rw [hc] at hc2
          cases hc2
        · intro hf
          rcases mem_common_funny.mp hf with ⟨⟨a2, b2, ha3, hb3, hab⟩, -⟩
          rw [ha2] at ha3
          rw [hb2] at hb3
          cases ha3
          cases hb3
          exact hab rfl
    · rintro ⟨hn, hig, hs, hf⟩
      by_cases h1 : n ∈ sc.names
      · by_cases h2 : n ∈ rc.names
        · rcases ha : sc.lookup n with _ | a
          · exact absurd ((EntryList.lookup_eq_none sc n).mp ha) (by simpa using h1)
          rcases hb : rc.lookup n with _ | b
          · exact absurd ((EntryList.lookup_eq_none rc n).mp hb) (by simpa using h2)
          rcases a with ⟨c1, m1⟩ | ch1 <;> rcases b with ⟨c2, m2⟩ | ch2
          · rcases hcs : cmpShallow c1 m1 c2 m2 with _ | _
            · exact Or.inr (Or.inr (Or.inr (mem_diff_files.mpr
                ⟨⟨c1, m1, c2, m2, ha, hb, hcs⟩, hig⟩)))
            · exact absurd (mem_same_files.mpr
                ⟨⟨c1, m1, c2, m2, ha, hb, hcs⟩, hig⟩) hs
          · exact absurd (mem_common_funny.mpr
              ⟨⟨_, _, ha, hb, by simp [Entry.isDir]⟩, hig⟩) hf
          · exact absurd (mem_common_funny.mpr
              ⟨⟨_, _, ha, hb, by simp [Entry.isDir]⟩, hig⟩) hf
          · exact Or.inl (mem_common_dirs.mpr ⟨⟨ch1, ch2, ha, hb⟩, hig⟩)
        · exact Or.inr (Or.inl (mem_left_only.mpr ⟨⟨h1, h2⟩, hig⟩))
      · rcases hn with hn | hn
        · exact absurd hn h1
        · exact Or.inr (Or.inr (Or.inl (mem_right_only.mpr ⟨⟨hn, h1⟩, hig⟩)))

/-! ## Claim C10: type-mismatched entries are never acted on -/

/-- Claim C10: a name that is a directory on one side and a regular file
on the other is classified into none of the four categories that the
script acts on, and the replica's entry under that name is untouched by
the run (the run result on the pair is the final listing rcAfter4, and the
lookup of the name there still returns the original replica entry). -/
theorem claim_C10_funny_untouched (sc rc : EntryList)
    (src repl : List String) (n : String) (a b : Entry)
    (ha : sc.lookup n = some a) (hb : rc.lookup n = some b)
    (hab : a.isDir ≠ b.isDir) :
    n ∉ common_dirs sc rc ∧ n ∉ left_only sc rc ∧
    n ∉ right_only sc rc ∧ n ∉ diff_files sc rc ∧
    (compare_folders (.dir sc) (.dir rc) src repl).1 =
      .dir (rcAfter4 sc rc src repl) ∧
    (rcAfter4 sc rc src repl).lookup n = some b := by
  have h1 : n ∉ common_dirs sc rc := by
    intro h
    rcases mem_common_dirs.mp h with ⟨⟨a2, b2, ha2, hb2⟩, -⟩
    rw [ha] at ha2
    rw [hb] at hb2
    cases ha2
    cases hb2
    exact hab rfl
  have h2 : n ∉ left_only sc rc :=
    fun h => (mem_left_only.mp h).1.2 (EntryList.mem_names_of_lookup hb)
  have h3 : n ∉ right_only sc rc :=
    fun h => (mem_right_only.mp h).1.2 (EntryList.mem_names_of_lookup ha)
  have h4 : n ∉ diff_files sc rc := by
    intro h
    rcases mem_diff_files.mp h with ⟨⟨c1, m1, c2, m2, ha2, hb2, -⟩, -⟩
    rw [ha] at ha2
    rw [hb] at hb2
    cases ha2
    cases hb2
    simp [Entry.isDir] at hab
  refine ⟨h1, h2, h3, h4, ?_, ?_⟩
  · rw [compare_folders_dir]
  · rw [lookup_rcAfter4_frame h1 h2 h3 h4, hb]

/-- Claim C10, witness: a concrete pair in which the name x is a
directory in the source and a file in the replica; after the run the
replica keeps its file untouched. -/
theorem claim_C10_witness :
    ((EntryList.cons "x" (Entry.file [7] 3) .nil).wfChildren = true) ∧
    "x" ∉ common_dirs (.cons "x" (.dir .nil) .nil)
      (.cons "x" (.file [7] 3) .nil) ∧
    (rcAfter4 (.cons "x" (.dir .nil) .nil) (.cons "x" (.file [7] 3) .nil)
      ["S"] ["R"]).lookup "x" = some (.file [7] 3) := by
  have h := claim_C10_funny_untouched (.cons "x" (.dir .nil) .nil)
    (.cons "x" (.file [7] 3) .nil) ["S"] ["R"] "x" (.dir .nil)
    (.file [7] 3) rfl rfl (by simp [Entry.isDir])
  exact ⟨rfl, h.1, h.2.2.2.2.2⟩

end SyncFolders

namespace SyncFolders

/-! ## Tallying log records -/

/-- The number of log records of a given kind among the events. -/
def countRecords (k : ActKind) (evs : List Event) : Nat :=
  evs.countP (fun e =>
    match e with
    | .record r => r.kind == k
    | _ => false)

/-- The total number of log records among the events. -/
def numRecords (evs : List Event) : Nat :=
  evs.countP (fun e =>
    match e with
    | .record _ => true
    | _ => false)

theorem countRecords_append (k : ActKind) (l1 l2 : List Event) :
    countRecords k (l1 ++ l2) = countRecords k l1 + countRecords k l2 :=
  List.countP_append _ l1 l2

theorem numRecords_append (l1 l2 : List Event) :
    numRecords (l1 ++ l2) = numRecords l1 + numRecords l2 :=
  List.countP_append _ l1 l2

theorem countRecords_nil (k : ActKind) : countRecords k [] = 0 := rfl

theorem countRecords_cons_mut (k : ActKind) (m : MutOp) (evs : List Event) :
    countRecords k (Event.mut m :: evs) = countRecords k evs := by
  simp [countRecords, List.countP_cons]

theorem countRecords_cons_visit (k : ActKind) (p q : List String)
    (evs : List Event) :
    countRecords k (Event.visit p q :: evs) = countRecords k evs := by
  simp [countRecords, List.countP_cons]

theorem countRecords_cons_record (k kk : ActKind) (p : List String)
    (evs : List Event) :
    countRecords k (Event.record ⟨kk, p⟩ :: evs) =
      countRecords k evs + (if kk = k then 1 else 0) := by
  by_cases h : kk = k <;>
    simp [countRecords, List.countP_cons, beq_iff_eq, h]

theorem countRecords_map_record (k kk : ActKind) (g : String → List String)
    (l : List String) :
    countRecords k (l.map (fun f => Event.record ⟨kk, g f⟩)) =
      if kk = k then l.length else 0 := by
  induction l with
  | nil => simp [countRecords_nil]
  | cons x xs ih =>
    simp only [List.map_cons, countRecords_cons_record, ih, List.length_cons]
    by_cases h : kk = k <;> simp [h]

/-- The number of immediate children the Applier enumerates for an entry:
the listing length for a directory, one for a regular file, and zero for
the (unreachable in the script) absent case. -/
def immCost : Option Entry → Nat
  | some (.dir dch) => dch.names.length
  | some (.file _ _) => 1
  | none => 0

theorem copy_files_tally (ns : List String) (sc : EntryList)
    (src dest : List String) (new : Bool) :
    (copy_files ns sc src dest new).2.2 =
      ⟨countRecords .create (copy_files ns sc src dest new).2.1,
       countRecords .copy (copy_files ns sc src dest new).2.1,
       countRecords .delete (copy_files ns sc src dest new).2.1⟩ := by
  induction ns with
  | nil => rfl
  | cons n rest ih =>
    rcases h : sc.lookup n with _ | (⟨c, m⟩ | dch) <;> cases new <;>
      simp [copy_files, h, ih, write_log, Counters.add_def, Counters.zero,
        countRecords_nil, countRecords_cons_mut, countRecords_cons_record,
        countRecords_append, countRecords_map_record] <;> omega

theorem delete_files_tally (ns : List String) (rc : EntryList)
    (folder : List String) :
    (delete_files ns rc folder).2 =
      ⟨countRecords .create (delete_files ns rc folder).1,
       countRecords .copy (delete_files ns rc folder).1,
       countRecords .delete (delete_files ns rc folder).1⟩ := by
  induction ns with
  | nil => rfl
  | cons n rest ih =>
    rcases h : rc.lookup n with _ | (⟨c, m⟩ | dch) <;>
      simp [delete_files, h, ih, write_log, Counters.add_def, Counters.zero,
        countRecords_nil, countRecords_cons_mut, countRecords_cons_record,
        countRecords_append, countRecords_map_record] <;> omega

mutual
theorem compare_folders_tally : ∀ (s r : Entry) (src repl : List String),
    (compare_folders s r src repl).2.2 =
      ⟨countRecords .create (compare_folders s r src repl).2.1,
       countRecords .copy (compare_folders s r src repl).2.1,
       countRecords .delete (compare_folders s r src repl).2.1⟩
  | .file c m, r, src, repl => by
    rw [compare_folders_file]
    rfl
  | .dir sc, .file c m, src, repl => by
    rw [compare_folders_dir_file]
    rfl
  | .dir sc, .dir rc, src, repl => by
    rw [compare_folders_dir]
    have h1 := compare_common_tally sc (common_dirs sc rc) rc src repl
    have h2 := copy_files_tally (left_only sc rc) sc src repl true
    have h3 := delete_files_tally (right_only sc rc)
      (rcAfter2 sc rc src repl) repl
    have h4 := copy_files_tally (diff_files sc rc) sc src repl false
    simp only [phase1, phase2, phase3, phase4] at *
    rw [h1, h2, h3, h4]
    simp [Counters.add_def, countRecords_cons_visit, countRecords_append]

theorem compare_common_tally :
    ∀ (walk : EntryList) (cds : List String) (rc : EntryList)
      (src repl : List String),
    (compare_common walk cds rc src repl).2.2 =
      ⟨countRecords .create (compare_common walk cds rc src repl).2.1,
       countRecords .copy (compare_common walk cds rc src repl).2.1,
       countRecords .delete (compare_common walk cds rc src repl).2.1⟩
  | .nil, cds, rc, src, repl => rfl
  | .cons n a tl, cds, rc, src, repl => by
    by_cases h : n ∈ cds
    · rw [compare_common_cons_mem _ _ _ _ _ _ _ h]
      have h1 := compare_folders_tally a ((rc.lookup n).getD (.dir .nil))
        (src ++ [n]) (repl ++ [n])
      have h2 := compare_common_tally tl cds rc src repl
      rw [h1, h2]
      simp [Counters.add_def, countRecords_append]
    · rw [compare_common_cons_not_mem _ _ _ _ _ _ _ h]
      exact compare_common_tally tl cds rc src repl
end

/-! ## Claim C5: counters equal the per-kind record tallies -/

/-- Claim C5: at the end of every reconciliation call, the number of log
records written with kind create equals the created counter, the number
with kind copy equals the copied counter, and the number with kind delete
equals the deleted counter. -/
theorem claim_C5_count_accuracy (s r : Entry) (src repl : List String) :
    countRecords .create (compare_folders s r src repl).2.1 =
      (compare_folders s r src repl).2.2.file_created_count ∧
    countRecords .copy (compare_folders s r src repl).2.1 =
      (compare_folders s r src repl).2.2.file_copied_count ∧
    countRecords .delete (compare_folders s r src repl).2.1 =
      (compare_folders s r src repl).2.2.file_deleted_count := by
  rw [compare_folders_tally s r src repl]
  exact ⟨rfl, rfl, rfl⟩

end SyncFolders

namespace SyncFolders

/-! ## Claim C2: how many records an Applier call emits -/

mutual
/-- The number of regular files contained anywhere inside an entry (a file
counts one; a directory counts the files of its whole subtree).  This is
what the specification says the Applier logs per directory entry. -/
def Entry.leafCount : Entry → Nat
  | .file _ _ => 1
  | .dir cs => cs.leafCountChildren

/-- The number of regular files contained anywhere inside a listing. -/
def EntryList.leafCountChildren : EntryList → Nat
  | .nil => 0
  | .cons _ e tl => e.leafCount + tl.leafCountChildren
end

theorem numRecords_nil : numRecords [] = 0 := rfl

theorem numRecords_cons_mut (m : MutOp) (evs : List Event) :
    numRecords (Event.mut m :: evs) = numRecords evs := by
  simp [numRecords, List.countP_cons]

theorem numRecords_cons_visit (p q : List String) (evs : List Event) :
    numRecords (Event.visit p q :: evs) = numRecords evs := by
  simp [numRecords, List.countP_cons]

theorem numRecords_cons_record (r : LogRecord) (evs : List Event) :
    numRecords (Event.record r :: evs) = numRecords evs + 1 := by
  simp [numRecords, List.countP_cons]

theorem numRecords_map_record (g : String → Event)
    (hg : ∀ f, ∃ r, g f = Event.record r) (l : List String) :
    numRecords (l.map g) = l.length := by
  induction l with
  | nil => rfl
  | cons x xs ih =>
    rcases hg x with ⟨r, hr⟩
    simp [hr, numRecords_cons_record, ih]

theorem copy_files_numRecords (ns : List String) (sc : EntryList)
    (src dest : List String) (new : Bool) :
    numRecords (copy_files ns sc src dest new).2.1 =
      (ns.map (fun n => immCost (sc.lookup n))).sum := by
  induction ns with
  | nil => rfl
  | cons n rest ih =>
    rcases h : sc.lookup n with _ | (⟨c, m⟩ | dch) <;>
      simp [copy_files, h, ih, write_log, immCost, numRecords_append,
        numRecords_cons_mut, numRecords_cons_record,
        numRecords_map_record _ (fun f => ⟨_, rfl⟩)] <;> omega

theorem delete_files_numRecords (ns : List String) (rc : EntryList)
    (folder : List String) :
    numRecords (delete_files ns rc folder).1 =
      (ns.map (fun n => immCost (rc.lookup n))).sum := by
  induction ns with
  | nil => rfl
  | cons n rest ih =>
    rcases h : rc.lookup n with _ | (⟨c, m⟩ | dch) <;>
      simp [delete_files, h, ih, write_log, immCost, numRecords_append,
        numRecords_cons_mut, numRecords_cons_record,
        numRecords_map_record _ (fun f => ⟨_, rfl⟩)] <;> omega

theorem copy_files_counters (ns : List String) (sc : EntryList)
    (src dest : List String) (new : Bool) :
    (copy_files ns sc src dest new).2.2 =
      if new then
        ⟨(ns.map (fun n => immCost (sc.lookup n))).sum, 0, 0⟩
      else
        ⟨0, (ns.map (fun n => immCost (sc.lookup n))).sum, 0⟩ := by
  induction ns with
  | nil => cases new <;> rfl
  | cons n rest ih =>
    rcases h : sc.lookup n with _ | (⟨c, m⟩ | dch) <;> cases new <;>
      simp [copy_files, h, ih, immCost, Counters.add_def, Counters.zero]

theorem delete_files_counters (ns : List String) (rc : EntryList)
    (folder : List String) :
    (delete_files ns rc folder).2 =
      ⟨0, 0, (ns.map (fun n => immCost (rc.lookup n))).sum⟩ := by
  induction ns with
  | nil => rfl
  | cons n rest ih =>
    rcases h : rc.lookup n with _ | (⟨c, m⟩ | dch) <;>
      simp [delete_files, h, ih, immCost, Counters.add_def, Counters.zero]

/-- Every log record emitted by copy_files is either one record per
immediate child of a listed directory entry (at the child's source-side
path) or the single record of a listed regular file. -/
theorem copy_files_record_paths {ns : List String} {sc : EntryList}
    {src dest : List String} {new : Bool} {k : ActKind} {p : List String}
    (h : Event.record ⟨k, p⟩ ∈ (copy_files ns sc src dest new).2.1) :
    k = (if new then .create else .copy) ∧
    ∃ n ∈ ns,
      (∃ dch, sc.lookup n = some (.dir dch) ∧
        ∃ f ∈ dch.names, p = src ++ [n, f]) ∨
      (∃ c m, sc.lookup n = some (.file c m) ∧ p = src ++ [n]) := by
  induction ns with
  | nil => cases h
  | cons n rest ih =>
    rcases hl : sc.lookup n with _ | (⟨c, m⟩ | dch) <;>
      simp only [copy_files, hl, write_log] at h
    · rcases ih h with ⟨hk, n2, hn2, hcase⟩
      exact ⟨hk, n2, List.mem_cons_of_mem _ hn2, hcase⟩
    · rcases List.mem_append.mp h with h2 | h2
      · rcases List.mem_cons.mp h2 with h3 | h3
        · cases h3
        · rcases List.mem_cons.mp h3 with h4 | h4
          · have hr : (⟨k, p⟩ : LogRecord) =
                ⟨if new then .create else .copy, src ++ [n]⟩ := by
              injection h4
            cases hr
            exact ⟨rfl, n, List.mem_cons_self _ _, Or.inr ⟨c, m, hl, rfl⟩⟩
          · cases h4
      · rcases ih h2 with ⟨hk, n2, hn2, hcase⟩
        exact ⟨hk, n2, List.mem_cons_of_mem _ hn2, hcase⟩
    · rcases List.mem_append.mp h with h2 | h2
      · rcases List.mem_cons.mp h2 with h3 | h3
        · cases h3
        · rcases List.mem_map.mp h3 with ⟨f, hf, hrec⟩
          have hr : (⟨k, p⟩ : LogRecord) =
              ⟨if new then .create else .copy, src ++ [n] ++ [f]⟩ := by
            injection hrec.symm
          cases hr
          exact ⟨rfl, n, List.mem_cons_self _ _,
            Or.inl ⟨dch, hl, f, hf, by simp⟩⟩
      · rcases ih h2 with ⟨hk, n2, hn2, hcase⟩
        exact ⟨hk, n2, List.mem_cons_of_mem _ hn2, hcase⟩

/-- Every log record emitted by delete_files has kind delete and is either
one record per immediate child of a listed directory entry or the single
record of a listed regular file, at replica-side paths. -/
theorem delete_files_record_paths {ns : List String} {rc : EntryList}
    {folder : List String} {k : ActKind} {p : List String}
    (h : Event.record ⟨k, p⟩ ∈ (delete_files ns rc folder).1) :
    k = .delete ∧
    ∃ n ∈ ns,
      (∃ dch, rc.lookup n = some (.dir dch) ∧
        ∃ f ∈ dch.names, p = folder ++ [n, f]) ∨
      (∃ c m, rc.lookup n = some (.file c m) ∧ p = folder ++ [n]) := by
  induction ns with
  | nil => cases h
  | cons n rest ih =>
    rcases hl : rc.lookup n with _ | (⟨c, m⟩ | dch) <;>
      simp only [delete_files, hl, write_log] at h
    · rcases ih h with ⟨hk, n2, hn2, hcase⟩
      exact ⟨hk, n2, List.mem_cons_of_mem _ hn2, hcase⟩
    · rcases List.mem_append.mp h with h2 | h2
      · rcases List.mem_cons.mp h2 with h3 | h3
        · cases h3
        · rcases List.mem_cons.mp h3 with h4 | h4
          · have hr : (⟨k, p⟩ : LogRecord) = ⟨.delete, folder ++ [n]⟩ := by
              injection h4
            cases hr
            exact ⟨rfl, n, List.mem_cons_self _ _, Or.inr ⟨c, m, hl, rfl⟩⟩
          · cases h4
      · rcases ih h2 with ⟨hk, n2, hn2, hcase⟩
        exact ⟨hk, n2, List.mem_cons_of_mem _ hn2, hcase⟩
    · rcases List.mem_append.mp h with h2 | h2
      · rcases List.mem_append.mp h2 with h3 | h3
        · rcases List.mem_map.mp h3 with ⟨f, hf, hrec⟩
          have hr : (⟨k, p⟩ : LogRecord) =
              ⟨.delete, folder ++ [n] ++ [f]⟩ := by
            injection hrec.symm
          cases hr
          exact ⟨rfl, n, List.mem_cons_self _ _,
            Or.inl ⟨dch, hl, f, hf, by simp⟩⟩
        · rcases List.mem_singleton.mp h3 with h4
          cases h4
      · rcases ih h2 with ⟨hk, n2, hn2, hcase⟩
        exact ⟨hk, n2, List.mem_cons_of_mem _ hn2, hcase⟩

end SyncFolders

namespace SyncFolders

/-- Claim C2, counterexample: copying the directory entry d, whose subtree
contains two regular files (inside the nested subdirectory s), increments
the created counter once (one increment per immediate child of d, namely
s itself), not once per file contained anywhere inside the subtree. -/
theorem claim_C2_counterexample :
    (copy_files ["d"]
        (.cons "d" (.dir (.cons "s" (.dir (.cons "f1" (.file [1] 0)
          (.cons "f2" (.file [2] 0) .nil))) .nil)) .nil)
        ["S"] ["R"] true).2.2.file_created_count ≠
      Entry.leafCount (.dir (.cons "s" (.dir (.cons "f1" (.file [1] 0)
        (.cons "f2" (.file [2] 0) .nil))) .nil)) := by
  decide

/-- Claim C2, amended: copying or deleting a directory entry emits exactly
one log record and one counter increment per immediate child of that
directory (a nested subdirectory counts as one child; its own contents are
neither logged nor counted), and no record for the directory itself;
copying or deleting a plain file emits exactly one record and one
increment. -/
theorem claim_C2_amended (ns : List String) (sc rc : EntryList)
    (src dest folder : List String) (new : Bool) :
    numRecords (copy_files ns sc src dest new).2.1 =
      (ns.map (fun n => immCost (sc.lookup n))).sum ∧
    numRecords (delete_files ns rc folder).1 =
      (ns.map (fun n => immCost (rc.lookup n))).sum ∧
    (copy_files ns sc src dest true).2.2 =
      ⟨(ns.map (fun n => immCost (sc.lookup n))).sum, 0, 0⟩ ∧
    (copy_files ns sc src dest false).2.2 =
      ⟨0, (ns.map (fun n => immCost (sc.lookup n))).sum, 0⟩ ∧
    (delete_files ns rc folder).2 =
      ⟨0, 0, (ns.map (fun n => immCost (rc.lookup n))).sum⟩ ∧
    (∀ n ∈ ns, ∀ dch, sc.lookup n = some (.dir dch) → ∀ k : ActKind,
      Event.record ⟨k, src ++ [n]⟩ ∉ (copy_files ns sc src dest new).2.1) ∧
    (∀ n ∈ ns, ∀ dch, rc.lookup n = some (.dir dch) → ∀ k : ActKind,
      Event.record ⟨k, folder ++ [n]⟩ ∉ (delete_files ns rc folder).1) := by
  refine ⟨copy_files_numRecords ns sc src dest new,
    delete_files_numRecords ns rc folder,
    copy_files_counters ns sc src dest true,
    copy_files_counters ns sc src dest false,
    delete_files_counters ns rc folder, ?_, ?_⟩
  · intro n hn dch hdch k hmem
    rcases copy_files_record_paths hmem with ⟨-, n2, -, hcase⟩
    rcases hcase with ⟨dch2, hl2, f, hf, hp⟩ | ⟨c, m, hl2, hp⟩
    · have := List.append_cancel_left hp
      cases this
    · have := List.append_cancel_left hp
      cases this
      rw [hdch] at hl2
      cases hl2
  · intro n hn dch hdch k hmem
    rcases delete_files_record_paths hmem with ⟨-, n2, -, hcase⟩
    rcases hcase with ⟨dch2, hl2, f, hf, hp⟩ | ⟨c, m, hl2, hp⟩
    · have := List.append_cancel_left hp
      cases this
    · have := List.append_cancel_left hp
      cases this
      rw [hdch] at hl2
      cases hl2

/-- Claim C2, amended, witness at a concrete input: copying the nested
directory d emits exactly one record (for its single immediate child s),
and no record carries the path of d itself. -/
theorem claim_C2_witness :
    numRecords (copy_files ["d"]
        (.cons "d" (.dir (.cons "s" (.dir (.cons "f1" (.file [1] 0)
          (.cons "f2" (.file [2] 0) .nil))) .nil)) .nil)
        ["S"] ["R"] true).2.1 = 1 ∧
    Event.record ⟨.create, ["S", "d"]⟩ ∉ (copy_files ["d"]
        (.cons "d" (.dir (.cons "s" (.dir (.cons "f1" (.file [1] 0)
          (.cons "f2" (.file [2] 0) .nil))) .nil)) .nil)
        ["S"] ["R"] true).2.1 := by
  have h := claim_C2_amended ["d"]
    (.cons "d" (.dir (.cons "s" (.dir (.cons "f1" (.file [1] 0)
      (.cons "f2" (.file [2] 0) .nil))) .nil)) .nil)
    (.cons "d" (.dir (.cons "s" (.dir (.cons "f1" (.file [1] 0)
      (.cons "f2" (.file [2] 0) .nil))) .nil)) .nil)
    ["S"] ["R"] ["F"] true
  refine ⟨?_, ?_⟩
  · rw [h.1]
    decide
  · have hd := h.2.2.2.2.2.1 "d" (List.mem_singleton.mpr rfl)
      (.cons "s" (.dir (.cons "f1" (.file [1] 0)
        (.cons "f2" (.file [2] 0) .nil))) .nil) rfl ActKind.create
    have heq : ["S"] ++ ["d"] = ["S", "d"] := rfl
    rwa [heq] at hd

end SyncFolders

namespace SyncFolders

/-! ## Induction through directory lookups -/

mutual
/-- Strong induction on entries: to prove a property of every entry it
suffices to prove it for an entry assuming it for every child looked up in
its listing. -/
theorem Entry.lookup_induction {Q : Entry → Prop}
    (step : ∀ e, (∀ cs n a, e = Entry.dir cs → cs.lookup n = some a → Q a) →
      Q e) :
    ∀ e, Q e
  | .file c m => step _ (fun cs n a he _ => by cases he)
  | .dir cs => step _ (fun cs2 n a he hl => by
      injection he with h
      subst h
      exact EntryList.lookup_induction_list step cs n a hl)

/-- The listing form of lookup_induction: the property holds of every
entry looked up in a listing. -/
theorem EntryList.lookup_induction_list {Q : Entry → Prop}
    (step : ∀ e, (∀ cs n a, e = Entry.dir cs → cs.lookup n = some a → Q a) →
      Q e) :
    ∀ (cs : EntryList) (n : String) (a : Entry), cs.lookup n = some a → Q a
  | .nil, n, a, hl => by cases hl
  | .cons n0 a0 tl, n, a, hl => by
      by_cases h : n0 = n
      · subst h
        have ha : a0 = a := by simpa [EntryList.lookup] using hl
        subst ha
        exact Entry.lookup_induction step a0
      · exact EntryList.lookup_induction_list step tl n a
          (by simpa [EntryList.lookup, h] using hl)
end

/-- Every event of the common-directory recursion phase belongs to the
trace of the recursive call on some common name, looked up in the walked
listing (under well-formedness the walked binding is the lookup). -/
theorem compare_common_trace_mem {walk : EntryList} {cds : List String}
    {rc : EntryList} {src repl : List String} {e : Event}
    (hwf : walk.wfChildren = true)
    (h : e ∈ (compare_common walk cds rc src repl).2.1) :
    ∃ n a, walk.lookup n = some a ∧ n ∈ cds ∧
      e ∈ (compare_folders a ((rc.lookup n).getD (.dir .nil))
        (src ++ [n]) (repl ++ [n])).2.1 := by
  induction walk with
  | nil => cases h
  | cons n0 a0 tl ih =>
    simp only [EntryList.wfChildren, Bool.and_eq_true, Bool.not_eq_true'] at hwf
    by_cases hc : n0 ∈ cds
    · rw [compare_common_cons_mem _ _ _ _ _ _ _ hc] at h
      rcases List.mem_append.mp h with h2 | h2
      · refine ⟨n0, a0, by simp [EntryList.lookup], hc, h2⟩
      · rcases ih hwf.2 h2 with ⟨n, a, hl, hcds, hmem⟩
        refine ⟨n, a, ?_, hcds, hmem⟩
        have hne : n0 ≠ n := by
          rintro rfl
          have := EntryList.mem_names_of_lookup hl
          have hc2 := List.elem_iff.mpr this
          rw [show tl.names.elem n0 = tl.names.contains n0 from rfl,
            hwf.1.1] at hc2
          cases hc2
        simpa [EntryList.lookup, hne] using hl
    · rw [compare_common_cons_not_mem _ _ _ _ _ _ _ hc] at h
      rcases ih hwf.2 h with ⟨n, a, hl, hcds, hmem⟩
      refine ⟨n, a, ?_, hcds, hmem⟩
      have hne : n0 ≠ n := by
        rintro rfl
        have := EntryList.mem_names_of_lookup hl
        have hc2 := List.elem_iff.mpr this
        rw [show tl.names.elem n0 = tl.names.contains n0 from rfl,
          hwf.1.1] at hc2
        cases hc2
      simpa [EntryList.lookup, hne] using hl

end SyncFolders

namespace SyncFolders

/-! ## Bindings of a listing, and induction over them -/

/-- The listing binds the name to the entry (also covers duplicate names,
unlike lookup, which returns the first occurrence). -/
def EntryList.binds : EntryList → String → Entry → Prop
  | .nil, _, _ => False
  | .cons n0 a0 tl, n, a => (n0 = n ∧ a0 = a) ∨ tl.binds n a

theorem EntryList.binds_of_lookup {cs : EntryList} {n : String} {a : Entry}
    (h : cs.lookup n = some a) : cs.binds n a := by
  induction cs with
  | nil => cases h
  | cons n0 a0 tl ih =>
    by_cases h0 : n0 = n
    · subst h0
      have : a0 = a := by simpa [EntryList.lookup] using h
      exact Or.inl ⟨rfl, this⟩
    · exact Or.inr (ih (by simpa [EntryList.lookup, h0] using h))

mutual
/-- Strong induction on entries through arbitrary bindings: to prove a
property of every entry it suffices to prove it for an entry assuming it
for every entry bound in its listing. -/
theorem Entry.binds_induction {Q : Entry → Prop}
    (step : ∀ e, (∀ cs n a, e = Entry.dir cs → cs.binds n a → Q a) → Q e) :
    ∀ e, Q e
  | .file c m => step _ (fun cs n a he _ => by cases he)
  | .dir cs => step _ (fun cs2 n a he hb => by
      injection he with h
      subst h
      exact EntryList.binds_induction_list step cs n a hb)

/-- The listing form of binds_induction. -/
theorem EntryList.binds_induction_list {Q : Entry → Prop}
    (step : ∀ e, (∀ cs n a, e = Entry.dir cs → cs.binds n a → Q a) → Q e) :
    ∀ (cs : EntryList) (n : String) (a : Entry), cs.binds n a → Q a
  | .nil, n, a, hb => hb.elim
  | .cons n0 a0 tl, n, a, hb => by
      rcases hb with ⟨-, ha⟩ | hb
      · subst ha
        exact Entry.binds_induction step a0
      · exact EntryList.binds_induction_list step tl n a hb
end

/-- Every event of the common-directory recursion phase comes from the
recursive call on some bound name of the walked listing (no
well-formedness needed). -/
theorem compare_common_trace_mem_weak {walk : EntryList} {cds : List String}
    {rc : EntryList} {src repl : List String} {e : Event}
    (h : e ∈ (compare_common walk cds rc src repl).2.1) :
    ∃ n a, walk.binds n a ∧ n ∈ cds ∧
      e ∈ (compare_folders a ((rc.lookup n).getD (.dir .nil))
        (src ++ [n]) (repl ++ [n])).2.1 := by
  induction walk with
  | nil => cases h
  | cons n0 a0 tl ih =>
    by_cases hc : n0 ∈ cds
    · rw [compare_common_cons_mem _ _ _ _ _ _ _ hc] at h
      rcases List.mem_append.mp h with h2 | h2
      · exact ⟨n0, a0, Or.inl ⟨rfl, rfl⟩, hc, h2⟩
      · rcases ih h2 with ⟨n, a, hb, hcds, hmem⟩
        exact ⟨n, a, Or.inr hb, hcds, hmem⟩
    · rw [compare_common_cons_not_mem _ _ _ _ _ _ _ hc] at h
      rcases ih h with ⟨n, a, hb, hcds, hmem⟩
      exact ⟨n, a, Or.inr hb, hcds, hmem⟩

/-! ## Claim C9: every filesystem mutation targets the replica -/

/-- The path a filesystem mutation writes to or removes (for copy2 the
target directory into which shutil.copy2 writes). -/
def mutTarget : MutOp → List String
  | .copytree _ d => d
  | .copy2 _ d => d
  | .rmtree t => t
  | .remove t => t

/-- The path p lies inside the tree rooted at root. -/
def isUnder (root p : List String) : Prop := ∃ rest, p = root ++ rest

theorem isUnder_self (p : List String) : isUnder p p := ⟨[], by simp⟩

theorem isUnder_of_isUnder_append {root p : List String} (x : List String)
    (h : isUnder (root ++ x) p) : isUnder root p := by
  rcases h with ⟨rest, hrest⟩
  exact ⟨x ++ rest, by simp [hrest]⟩

/-- Two roots that both lie above a common path are comparable. -/
theorem isUnder_comparable : ∀ (a b t : List String),
    isUnder a t → isUnder b t → isUnder a b ∨ isUnder b a
  | [], b, t, _, _ => Or.inl ⟨b, rfl⟩
  | a0 :: a2, [], t, _, _ => Or.inr ⟨a0 :: a2, rfl⟩
  | a0 :: a2, b0 :: b2, t, ⟨x, hx⟩, ⟨y, hy⟩ => by
    cases t with
    | nil => cases hx
    | cons t0 t2 =>
      simp only [List.cons_append, List.cons.injEq] at hx hy
      rcases isUnder_comparable a2 b2 t2 ⟨x, hx.2⟩ ⟨y, hy.2⟩ with h | h
      · rcases h with ⟨z, hz⟩
        exact Or.inl ⟨z, by simp [← hx.1, ← hy.1, hz]⟩
      · rcases h with ⟨z, hz⟩
        exact Or.inr ⟨z, by simp [← hx.1, ← hy.1, hz]⟩

theorem copy_files_mut_targets {ns : List String} {sc : EntryList}
    {src dest : List String} {new : Bool} {m : MutOp}
    (h : Event.mut m ∈ (copy_files ns sc src dest new).2.1) :
    isUnder dest (mutTarget m) := by
  induction ns with
  | nil => cases h
  | cons n rest ih =>
    rcases hl : sc.lookup n with _ | (⟨c, mt⟩ | dch) <;>
      simp only [copy_files, hl, write_log] at h
    · exact ih h
    · rcases List.mem_append.mp h with h2 | h2
      · rcases List.mem_cons.mp h2 with h3 | h3
        · cases h3
          exact ⟨[], by simp [mutTarget]⟩
        · rcases List.mem_cons.mp h3 with h4 | h4
          · cases h4
          · cases h4
      · exact ih h2
    · rcases List.mem_append.mp h with h2 | h2
      · rcases List.mem_cons.mp h2 with h3 | h3
        · cases h3
          exact ⟨[n], by simp [mutTarget]⟩
        · rcases List.mem_map.mp h3 with ⟨f, -, hrec⟩
          cases hrec
      · exact ih h2

theorem delete_files_mut_targets {ns : List String} {rc : EntryList}
    {folder : List String} {m : MutOp}
    (h : Event.mut m ∈ (delete_files ns rc folder).1) :
    isUnder folder (mutTarget m) := by
  induction ns with
  | nil => cases h
  | cons n rest ih =>
    rcases hl : rc.lookup n with _ | (⟨c, mt⟩ | dch) <;>
      simp only [delete_files, hl, write_log] at h
    · exact ih h
    · rcases List.mem_append.mp h with h2 | h2
      · rcases List.mem_cons.mp h2 with h3 | h3
        · cases h3
          exact ⟨[n], by simp [mutTarget]⟩
        · rcases List.mem_cons.mp h3 with h4 | h4
          · cases h4
          · cases h4
      · exact ih h2
    · rcases List.mem_append.mp h with h2 | h2
      · rcases List.mem_append.mp h2 with h3 | h3
        · rcases List.mem_map.mp h3 with ⟨f, -, hrec⟩
          cases hrec
        · rcases List.mem_singleton.mp h3 with h4
          cases h4
          exact ⟨[n], by simp [mutTarget]⟩
      · exact ih h2

theorem compare_folders_mut_targets (s : Entry) :
    ∀ (r : Entry) (src repl : List String) (m : MutOp),
      Event.mut m ∈ (compare_folders s r src repl).2.1 →
      isUnder repl (mutTarget m) := by
  induction s using Entry.binds_induction with
  | step e IH =>
    intro r src repl m hm
    rcases e with ⟨c, mt⟩ | sc
    · rw [compare_folders_file] at hm
      cases hm
    rcases r with ⟨c, mt⟩ | rc
    · rw [compare_folders_dir_file] at hm
      cases hm
    rw [compare_folders_dir] at hm
    rcases List.mem_cons.mp hm with h | h
    · cases h
    rcases List.mem_append.mp h with h | h4
    rcases List.mem_append.mp h with h | h3
    rcases List.mem_append.mp h with h1 | h2
    · rcases compare_common_trace_mem_weak h1 with ⟨n, a, hb, -, hmem⟩
      exact isUnder_of_isUnder_append [n]
        (IH sc n a rfl hb _ (src ++ [n]) (repl ++ [n]) m hmem)
    · exact copy_files_mut_targets h2
    · exact delete_files_mut_targets h3
    · exact copy_files_mut_targets h4

/-- Claim C9: every filesystem mutation of a run (copytree, copy2, rmtree,
remove) targets a path inside the replica tree, and — whenever neither
root lies inside the other — no mutation targets a path inside the source
tree, so the source tree is untouched. -/
theorem claim_C9_mutations_inside_replica (s r : Entry)
    (src repl : List String) :
    (∀ m : MutOp, Event.mut m ∈ (compare_folders s r src repl).2.1 →
      isUnder repl (mutTarget m)) ∧
    (¬ isUnder src repl → ¬ isUnder repl src →
      ∀ m : MutOp, Event.mut m ∈ (compare_folders s r src repl).2.1 →
        ¬ isUnder src (mutTarget m)) := by
  refine ⟨fun m hm => compare_folders_mut_targets s r src repl m hm, ?_⟩
  intro h1 h2 m hm hunder
  have hrepl := compare_folders_mut_targets s r src repl m hm
  rcases isUnder_comparable src repl (mutTarget m) hunder hrepl with h | h
  · exact h1 h
  · exact h2 h

/-- Claim C9, witness: a concrete run that performs a mutation; the
mutation's target lies inside the replica root R and not inside the
disjoint source root S. -/
theorem claim_C9_witness :
    isUnder ["R"] (mutTarget (.copy2 ["S", "a"] ["R"])) ∧
    ¬ isUnder ["S"] (mutTarget (.copy2 ["S", "a"] ["R"])) := by
  have hmem : Event.mut (.copy2 ["S", "a"] ["R"]) ∈
      (compare_folders (.dir (.cons "a" (.file [1] 0) .nil)) (.dir .nil)
        ["S"] ["R"]).2.1 := by
    decide
  have h := claim_C9_mutations_inside_replica
    (.dir (.cons "a" (.file [1] 0) .nil)) (.dir .nil) ["S"] ["R"]
  refine ⟨h.1 _ hmem, h.2 ?_ ?_ _ hmem⟩
  · rintro ⟨rest, hrest⟩
    injection hrest with h1 h2
    exact absurd h1 (by decide)
  · rintro ⟨rest, hrest⟩
    injection hrest with h1 h2
    exact absurd h1 (by decide)

end SyncFolders

namespace SyncFolders

/-! ## Claim C6: deletion containment -/

/-- Follow a relative path from an entry down through directory lookups. -/
def lookupPath : Entry → List String → Option Entry
  | e, [] => some e
  | .dir cs, n :: rest =>
    match cs.lookup n with
    | some e => lookupPath e rest
    | none => none
  | .file _ _, _ :: _ => none

theorem lookupPath_dir_cons (cs : EntryList) (n : String)
    (rest : List String) :
    lookupPath (.dir cs) (n :: rest) =
      match cs.lookup n with
      | some e => lookupPath e rest
      | none => none := rfl

theorem lookupPath_cons_some {cs : EntryList} {n : String} {e : Entry}
    (rest : List String) (h : cs.lookup n = some e) :
    lookupPath (.dir cs) (n :: rest) = lookupPath e rest := by
  rw [lookupPath_dir_cons, h]

theorem lookupPath_cons_none {cs : EntryList} {n : String}
    (rest : List String) (h : cs.lookup n = none) :
    lookupPath (.dir cs) (n :: rest) = none := by
  rw [lookupPath_dir_cons, h]

theorem compare_folders_dir_fst (sc rc : EntryList) (src repl : List String) :
    (compare_folders (.dir sc) (.dir rc) src repl).1 =
      .dir (rcAfter4 sc rc src repl) := by
  rw [compare_folders_dir]

theorem compare_folders_dir_trace (sc rc : EntryList)
    (src repl : List String) :
    (compare_folders (.dir sc) (.dir rc) src repl).2.1 =
      Event.visit src repl ::
        ((phase1 sc rc src repl).2.1 ++ (phase2 sc rc src repl).2.1 ++
          (phase3 sc rc src repl).1 ++ (phase4 sc rc src repl).2.1) := by
  rw [compare_folders_dir]

/-- A delete record of a run names a path under the replica root whose
relative path does not exist in the source tree. -/
theorem compare_folders_delete_records (s : Entry) :
    ∀ (r : Entry) (src repl : List String), s.wf = true → r.wf = true →
      ∀ p, Event.record ⟨.delete, p⟩ ∈ (compare_folders s r src repl).2.1 →
      ∃ rel, rel ≠ [] ∧ p = repl ++ rel ∧ lookupPath s rel = none := by
  induction s using Entry.lookup_induction with
  | step e IH =>
    intro r src repl hwe hwr p hp
    rcases e with ⟨c, mt⟩ | sc
    · rw [compare_folders_file] at hp
      cases hp
    rcases r with ⟨c, mt⟩ | rc
    · rw [compare_folders_dir_file] at hp
      cases hp
    rw [compare_folders_dir] at hp
    rcases List.mem_cons.mp hp with h | h
    · cases h
    rcases List.mem_append.mp h with h | h4
    rcases List.mem_append.mp h with h | h3
    rcases List.mem_append.mp h with h1 | h2
    · rcases compare_common_trace_mem hwe h1 with ⟨n, a, hl, hcds, hmem⟩
      rcases mem_common_dirs.mp hcds with ⟨⟨ach, bch, ha, hb⟩, -⟩
      rw [hl] at ha
      cases ha
      have hwa : (Entry.dir ach).wf = true := EntryList.wf_of_lookup hwe hl
      have hwb : (Entry.dir bch).wf = true := EntryList.wf_of_lookup hwr hb
      rw [hb] at hmem
      rcases IH sc n _ rfl hl _ (src ++ [n]) (repl ++ [n]) hwa hwb p hmem
        with ⟨rel, hne, hrel, hnone⟩
      refine ⟨n :: rel, by simp, by simp [hrel], ?_⟩
      rw [lookupPath_dir_cons, hl]
      exact hnone
    · rcases copy_files_record_paths h2 with ⟨hk, -⟩
      cases hk
    · rcases delete_files_record_paths h3 with ⟨-, n, hn, hcase⟩
      have hns : n ∉ sc.names := (mem_right_only.mp hn).1.2
      have hsl : sc.lookup n = none := EntryList.lookup_of_not_mem hns
      rcases hcase with ⟨dch, -, f, -, hpeq⟩ | ⟨c2, m2, -, hpeq⟩
      · refine ⟨[n, f], by simp, hpeq, ?_⟩
        rw [lookupPath_dir_cons, hsl]
      · refine ⟨[n], by simp, hpeq, ?_⟩
        rw [lookupPath_dir_cons, hsl]
    · rcases copy_files_record_paths h4 with ⟨hk, -⟩
      cases hk

/-- If a file of the replica is gone after the run, its relative path does
not exist in the source tree. -/
theorem compare_folders_removed_paths (s : Entry) :
    ∀ (r : Entry) (src repl : List String), s.wf = true → r.wf = true →
      ∀ (rel : List String) (c : List Nat) (mt : Nat),
        lookupPath r rel = some (.file c mt) →
        lookupPath (compare_folders s r src repl).1 rel = none →
        lookupPath s rel = none := by
  induction s using Entry.lookup_induction with
  | step e IH =>
    intro r src repl hwe hwr rel c mt hfile hgone
    rcases e with ⟨c2, mt2⟩ | sc
    · rw [compare_folders_file] at hgone
      rw [hfile] at hgone
      cases hgone
    rcases r with ⟨c2, mt2⟩ | rc
    · rw [compare_folders_dir_file] at hgone
      rw [hfile] at hgone
      cases hgone
    rcases rel with _ | ⟨n, rest⟩
    · cases hfile
    rw [compare_folders_dir_fst] at hgone
    rcases hb : rc.lookup n with _ | b
    · rw [lookupPath_cons_none rest hb] at hfile
      cases hfile
    rw [lookupPath_cons_some rest hb] at hfile
    rcases ha : sc.lookup n with _ | a
    · exact lookupPath_cons_none rest ha
    by_cases hcd : n ∈ common_dirs sc rc
    · rcases mem_common_dirs.mp hcd with ⟨⟨ach, bch, ha2, hb2⟩, -⟩
      rw [ha] at ha2
      cases ha2
      rw [hb] at hb2
      cases hb2
      rw [lookupPath_cons_some rest
        (lookup_rcAfter4_common_dirs hwe hcd ha hb)] at hgone
      rw [lookupPath_cons_some rest ha]
      exact IH sc n _ rfl ha (.dir bch) (src ++ [n]) (repl ++ [n])
        (EntryList.wf_of_lookup hwe ha) (EntryList.wf_of_lookup hwr hb)
        rest c mt hfile hgone
    · by_cases hdf : n ∈ diff_files sc rc
      · rcases mem_diff_files.mp hdf with ⟨⟨c3, m3, c4, m4, ha2, hb2, -⟩, -⟩
        rw [ha] at ha2
        cases ha2
        rw [hb] at hb2
        cases hb2
        rw [lookupPath_cons_some rest
          (lookup_rcAfter4_diff_files hwe hdf ha)] at hgone
        rcases rest with _ | ⟨n2, rest2⟩
        · cases hgone
        · exact absurd hfile (by simp [lookupPath])
      · have hlo : n ∉ left_only sc rc := by
          rw [mem_left_only]
          rintro ⟨⟨-, hnr⟩, -⟩
          exact hnr (EntryList.mem_names_of_lookup hb)
        have hro : n ∉ right_only sc rc := by
          rw [mem_right_only]
          rintro ⟨⟨-, hns⟩, -⟩
          exact hns (EntryList.mem_names_of_lookup ha)
        rw [lookupPath_cons_some rest
          (by rw [lookup_rcAfter4_frame hcd hlo hro hdf]; exact hb)] at hgone
        rw [hfile] at hgone
        cases hgone

/-- Claim C6: no file is deleted from the replica unless its relative path
is absent from the source at classification time.  First: every delete log
record of a run names a replica path whose relative path does not exist in
the (unchanged) source tree.  Second: every replica file that is gone at
the end of the run had a relative path absent from the source tree. -/
theorem claim_C6_deletion_containment (s r : Entry) (src repl : List String)
    (hs : s.wf = true) (hr : r.wf = true) :
    (∀ p, Event.record ⟨.delete, p⟩ ∈ (compare_folders s r src repl).2.1 →
      ∃ rel, rel ≠ [] ∧ p = repl ++ rel ∧ lookupPath s rel = none) ∧
    (∀ (rel : List String) (c : List Nat) (mt : Nat),
      lookupPath r rel = some (.file c mt) →
      lookupPath (compare_folders s r src repl).1 rel = none →
      lookupPath s rel = none) :=
  ⟨fun p hp => compare_folders_delete_records s r src repl hs hr p hp,
   fun rel c mt h1 h2 =>
     compare_folders_removed_paths s r src repl hs hr rel c mt h1 h2⟩

/-- Claim C6, witness: deleting the stale replica file produces a delete
record whose relative path (stale) does not exist in the empty source. -/
theorem claim_C6_witness :
    ∃ rel, rel ≠ [] ∧ (["R", "stale"] : List String) = ["R"] ++ rel ∧
      lookupPath (.dir .nil) rel = none := by
  have h := claim_C6_deletion_containment (.dir .nil)
    (.dir (.cons "stale" (.file [1] 0) .nil)) ["S"] ["R"] rfl rfl
  exact h.1 ["R", "stale"] (by decide)

end SyncFolders

namespace SyncFolders

/-! ## Claim C1: the mirror invariant -/

mutual
/-- The mirror relation of the specification: both trees have the same
entry-name sets at every depth and every file has the same byte content
(modification times are not part of the property). -/
def mirrors : Entry → Entry → Bool
  | .file c1 _, .file c2 _ => c1 == c2
  | .dir sc, .dir rc =>
    sc.names.all (fun n => rc.names.contains n) &&
    rc.names.all (fun n => sc.names.contains n) &&
    mirrorsChildren sc rc
  | _, _ => false

/-- Every child of the first listing mirrors the equally named child of
the second. -/
def mirrorsChildren : EntryList → EntryList → Bool
  | .nil, _ => true
  | .cons n a tl, rc =>
    (match rc.lookup n with
     | some b => mirrors a b
     | none => false) && mirrorsChildren tl rc
end

mutual
/-- The proviso under which the script converges: at every depth no common
name is a directory on one side and a file on the other, no pair of
same-named files fools the shallow signature comparison (equal size and
mtime but different bytes), and no entry of either listing bears one of
filecmp's default ignore names (those entries are invisible to the
classifier and would never be copied or deleted). -/
def clean : Entry → Entry → Bool
  | .file c1 m1, .file c2 m2 => !cmpShallow c1 m1 c2 m2 || (c1 == c2)
  | .dir sc, .dir rc =>
    sc.names.all (fun n => !(DEFAULT_IGNORES.contains n)) &&
    rc.names.all (fun n => !(DEFAULT_IGNORES.contains n)) &&
    cleanChildren sc rc
  | _, _ => false

/-- The proviso, checked for every common name of two listings. -/
def cleanChildren : EntryList → EntryList → Bool
  | .nil, _ => true
  | .cons n a tl, rc =>
    (match rc.lookup n with
     | some b => clean a b
     | none => true) && cleanChildren tl rc
end

theorem EntryList.binds_mem_names {cs : EntryList} {n : String} {a : Entry}
    (h : cs.binds n a) : n ∈ cs.names := by
  induction cs with
  | nil => exact h.elim
  | cons n0 a0 tl ih =>
    rcases h with ⟨h1, -⟩ | h
    · subst h1; exact List.mem_cons_self _ _
    · exact List.mem_cons_of_mem _ (ih h)

theorem EntryList.lookup_of_binds {cs : EntryList} {n : String} {a : Entry}
    (hwf : cs.wfChildren = true) (h : cs.binds n a) :
    cs.lookup n = some a := by
  induction cs with
  | nil => exact h.elim
  | cons n0 a0 tl ih =>
    simp only [EntryList.wfChildren, Bool.and_eq_true, Bool.not_eq_true'] at hwf
    rcases h with ⟨h1, h2⟩ | h
    · subst h1; subst h2
      simp [EntryList.lookup]
    · have hne : n0 ≠ n := by
        rintro rfl
        have hc := List.elem_iff.mpr (EntryList.binds_mem_names h)
        rw [show tl.names.elem n0 = tl.names.contains n0 from rfl,
          hwf.1.1] at hc
        cases hc
      simp [EntryList.lookup, hne, ih hwf.2 h]

theorem mirrorsChildren_of_forall {walk rc : EntryList}
    (h : ∀ n a, walk.binds n a →
      ∃ b, rc.lookup n = some b ∧ mirrors a b = true) :
    mirrorsChildren walk rc = true := by
  induction walk with
  | nil => rfl
  | cons n0 a0 tl ih =>
    rcases h n0 a0 (Or.inl ⟨rfl, rfl⟩) with ⟨b, hb, hm⟩
    simp only [mirrorsChildren, hb, hm, Bool.and_eq_true, true_and]
    exact ih (fun n a hbind => h n a (Or.inr hbind))

theorem cleanChildren_spec {walk rc : EntryList} {n : String} {a b : Entry}
    (h : cleanChildren walk rc = true) (hb : walk.binds n a)
    (hl : rc.lookup n = some b) : clean a b = true := by
  induction walk with
  | nil => exact hb.elim
  | cons n0 a0 tl ih =>
    simp only [cleanChildren, Bool.and_eq_true] at h
    rcases hb with ⟨h1, h2⟩ | hbind
    · subst h1; subst h2
      have := h.1
      rw [hl] at this
      exact this
    · exact ih h.2 hbind

/-- A well-formed tree mirrors itself. -/
theorem mirrors_refl (e : Entry) : e.wf = true → mirrors e e = true := by
  induction e using Entry.lookup_induction with
  | step e IH =>
    intro hwf
    rcases e with ⟨c, m⟩ | cs
    · simp [mirrors]
    · simp only [mirrors, Bool.and_eq_true]
      refine ⟨⟨?_, ?_⟩, ?_⟩
      · rw [List.all_eq_true]
        intro n hn
        exact List.elem_iff.mpr hn
      · rw [List.all_eq_true]
        intro n hn
        exact List.elem_iff.mpr hn
      · apply mirrorsChildren_of_forall
        intro n a hbind
        have hl := EntryList.lookup_of_binds hwf hbind
        exact ⟨a, hl, IH cs n a rfl hl
          (EntryList.wf_of_lookup hwf hl)⟩

/-- Claim C1, counterexample: two same-named files with equal size and
equal mtime but different bytes are classified as identical by the shallow
comparison; after a completed run the replica's content still differs from
the source's, so the mirror property fails. -/
theorem claim_C1_counterexample :
    mirrors (.dir (.cons "a" (.file [1] 0) .nil))
      (compare_folders (.dir (.cons "a" (.file [1] 0) .nil))
        (.dir (.cons "a" (.file [2] 0) .nil)) ["S"] ["R"]).1 = false := by
  decide

/-- Claim C1, amended: for well-formed directory trees satisfying the
proviso (no dir-versus-file type clash at any visited common name, no
same-named file pair with equal size and mtime but different bytes, and no
entry at any visited level bearing one of filecmp's default ignore names),
one reconciliation run makes the replica mirror the source: equal name
sets and equal file contents at every depth. -/
theorem claim_C1_mirror_convergence (s : Entry) :
    ∀ (r : Entry) (src repl : List String),
      s.wf = true → r.wf = true → s.isDir = true → r.isDir = true →
      clean s r = true →
      mirrors s (compare_folders s r src repl).1 = true := by
  induction s using Entry.lookup_induction with
  | step e IH =>
    intro r src repl hws hwr hds hdr hclean
    rcases e with ⟨c, m⟩ | sc
    · cases hds
    rcases r with ⟨c, m⟩ | rc
    · cases hdr
    have hcl := hclean
    simp only [clean, Bool.and_eq_true] at hcl
    obtain ⟨⟨higs, higr⟩, hcc⟩ := hcl
    have hgs : ∀ m ∈ sc.names, m ∉ DEFAULT_IGNORES := by
      rw [List.all_eq_true] at higs
      intro m hm
      simpa using higs m hm
    have hgr : ∀ m ∈ rc.names, m ∉ DEFAULT_IGNORES := by
      rw [List.all_eq_true] at higr
      intro m hm
      simpa using higr m hm
    rw [compare_folders_dir_fst]
    simp only [mirrors, Bool.and_eq_true]
    refine ⟨⟨?_, ?_⟩, ?_⟩
    · rw [List.all_eq_true]
      intro n hn
      exact List.elem_iff.mpr
        (mem_names_rcAfter4.mpr (Or.inl ⟨hn, hgs n hn⟩))
    · rw [List.all_eq_true]
      intro n hn
      rcases mem_names_rcAfter4.mp hn with ⟨h1, -⟩ | ⟨h1, h2⟩
      · exact List.elem_iff.mpr h1
      · by_cases hsn : n ∈ sc.names
        · exact List.elem_iff.mpr hsn
        · exact absurd (mem_right_only.mpr ⟨⟨h1, hsn⟩, hgr n h1⟩) h2
    · apply mirrorsChildren_of_forall
      intro n a hbind
      have ha : sc.lookup n = some a := EntryList.lookup_of_binds hws hbind
      have hwa : a.wf = true := EntryList.wf_of_lookup hws ha
      have hig : n ∉ DEFAULT_IGNORES :=
        hgs n (EntryList.mem_names_of_lookup ha)
      rcases hb : rc.lookup n with _ | b
      · -- source-only: copied verbatim
        have hlo : n ∈ left_only sc rc := mem_left_only.mpr
          ⟨⟨EntryList.mem_names_of_lookup ha,
           (EntryList.lookup_eq_none rc n).mp hb⟩, hig⟩
        exact ⟨a, lookup_rcAfter4_left_only hws hlo ha, mirrors_refl a hwa⟩
      · have hcab : clean a b = true := cleanChildren_spec hcc hbind hb
        rcases a with ⟨c1, m1⟩ | ach <;> rcases b with ⟨c2, m2⟩ | bch
        · -- two files: identical or differing
          rcases hcs : cmpShallow c1 m1 c2 m2 with _ | _
          · -- differing: overwritten with the source file
            have hdf : n ∈ diff_files sc rc :=
              mem_diff_files.mpr ⟨⟨c1, m1, c2, m2, ha, hb, hcs⟩, hig⟩
            exact ⟨.file c1 m1, lookup_rcAfter4_diff_files hws hdf ha,
              by simp [mirrors]⟩
          · -- shallow-identical: the proviso makes the bytes equal
            have hceq : c1 = c2 := by
              simp only [clean, hcs, Bool.not_true, Bool.false_or,
                beq_iff_eq] at hcab
              exact hcab
            have hcd : n ∉ common_dirs sc rc := by
              intro h
              rcases mem_common_dirs.mp h with ⟨⟨a2, b2, ha2, -⟩, -⟩
              rw [ha] at ha2
              cases ha2
            have hlo : n ∉ left_only sc rc := fun h =>
              (mem_left_only.mp h).1.2 (EntryList.mem_names_of_lookup hb)
            have hro : n ∉ right_only sc rc := fun h =>
              (mem_right_only.mp h).1.2 (EntryList.mem_names_of_lookup ha)
            have hdf : n ∉ diff_files sc rc := by
              intro h
              rcases mem_diff_files.mp h with ⟨⟨d1, k1, d2, k2, ha2, hb2, hc2⟩, -⟩
              rw [ha] at ha2
              cases ha2
              rw [hb] at hb2
              cases hb2
              rw [hcs] at hc2
              cases hc2
            refine ⟨.file c2 m2, ?_, by simp [mirrors, hceq]⟩
            rw [lookup_rcAfter4_frame hcd hlo hro hdf]
            exact hb
        · -- file in source, directory in replica: the proviso forbids it
          simp [clean] at hcab
        · -- directory in source, file in replica: the proviso forbids it
          simp [clean] at hcab
        · -- common directories: recurse
          have hcd : n ∈ common_dirs sc rc :=
            mem_common_dirs.mpr ⟨⟨ach, bch, ha, hb⟩, hig⟩
          refine ⟨(compare_folders (.dir ach) (.dir bch)
            (src ++ [n]) (repl ++ [n])).1,
            lookup_rcAfter4_common_dirs hws hcd ha hb, ?_⟩
          exact IH sc n _ rfl ha (.dir bch) (src ++ [n]) (repl ++ [n])
            hwa (EntryList.wf_of_lookup hwr hb) rfl rfl hcab

/-- Claim C1, amended, witness: syncing a source with a file and a nested
subdirectory into an empty replica produces a mirror of the source. -/
theorem claim_C1_witness :
    mirrors
      (.dir (.cons "a.txt" (.file [88] 1)
        (.cons "sub" (.dir (.cons "b.txt" (.file [66] 2) .nil)) .nil)))
      (compare_folders
        (.dir (.cons "a.txt" (.file [88] 1)
          (.cons "sub" (.dir (.cons "b.txt" (.file [66] 2) .nil)) .nil)))
        (.dir .nil) ["S"] ["R"]).1 = true := by
  exact claim_C1_mirror_convergence
    (.dir (.cons "a.txt" (.file [88] 1)
      (.cons "sub" (.dir (.cons "b.txt" (.file [66] 2) .nil)) .nil)))
    (.dir .nil) ["S"] ["R"] (by decide) rfl rfl rfl (by decide)

end SyncFolders

namespace SyncFolders

/-! ## Claim C3: idempotence -/

mutual
/-- The state after one run, as the classifier sees it: equal name sets at
every depth up to the default-ignored names (which dircmp filters out of
both listings, so the second run never sees them), every non-ignored
common file pair shallow-identical, every non-ignored common directory
pair synced; type-mismatched pairs are allowed (the script never acts on
them, so the second run sees them unchanged and again does nothing). -/
def synced : Entry → Entry → Bool
  | .dir sc, .dir rc =>
    sc.names.all (fun n =>
      DEFAULT_IGNORES.contains n || rc.names.contains n) &&
    rc.names.all (fun n =>
      DEFAULT_IGNORES.contains n || sc.names.contains n) &&
    syncedChildren sc rc
  | .file c1 m1, .file c2 m2 => cmpShallow c1 m1 c2 m2
  | _, _ => true

/-- Every bound child of the first listing whose name is not ignored is
synced with the equally named child of the second. -/
def syncedChildren : EntryList → EntryList → Bool
  | .nil, _ => true
  | .cons n a tl, rc =>
    (DEFAULT_IGNORES.contains n ||
     match rc.lookup n with
     | some b => synced a b
     | none => true) && syncedChildren tl rc
end

/-- The filesystem actions of a trace: every event except the
recursive-call visit markers. -/
def isAction : Event → Bool
  | .visit _ _ => false
  | _ => true

/-- The filesystem actions among the events of a run. -/
def actionsOf (evs : List Event) : List Event := evs.filter isAction

theorem actionsOf_append (l1 l2 : List Event) :
    actionsOf (l1 ++ l2) = actionsOf l1 ++ actionsOf l2 := by
  simp [actionsOf]

theorem actionsOf_eq_nil {evs : List Event} :
    actionsOf evs = [] ↔ ∀ e ∈ evs, isAction e = false := by
  rw [actionsOf, List.filter_eq_nil_iff]
  simp

theorem countRecords_eq_zero_of_no_actions {evs : List Event}
    (h : actionsOf evs = []) (k : ActKind) : countRecords k evs = 0 := by
  rw [actionsOf_eq_nil] at h
  rw [countRecords, List.countP_eq_zero]
  intro e he
  have h2 := h e he
  rcases e with ⟨p, q⟩ | ⟨m⟩ | ⟨r⟩
  · simp
  · simp
  · cases h2

theorem syncedChildren_of_forall {walk rc : EntryList}
    (h : ∀ n a, walk.binds n a → n ∉ DEFAULT_IGNORES → ∀ b,
      rc.lookup n = some b → synced a b = true) :
    syncedChildren walk rc = true := by
  induction walk with
  | nil => rfl
  | cons n0 a0 tl ih =>
    simp only [syncedChildren, Bool.and_eq_true, Bool.or_eq_true]
    constructor
    · by_cases hig : n0 ∈ DEFAULT_IGNORES
      · exact Or.inl (by simpa [List.elem_iff] using hig)
      · refine Or.inr ?_
        rcases hb : rc.lookup n0 with _ | b
        · rfl
        · exact h n0 a0 (Or.inl ⟨rfl, rfl⟩) hig b hb
    · exact ih (fun n a hbind => h n a (Or.inr hbind))

theorem syncedChildren_spec {walk rc : EntryList} {n : String} {a b : Entry}
    (h : syncedChildren walk rc = true) (hbind : walk.binds n a)
    (hig : n ∉ DEFAULT_IGNORES) (hl : rc.lookup n = some b) :
    synced a b = true := by
  induction walk with
  | nil => exact hbind.elim
  | cons n0 a0 tl ih =>
    simp only [syncedChildren, Bool.and_eq_true, Bool.or_eq_true] at h
    rcases hbind with ⟨h1, h2⟩ | hbind
    · subst h1; subst h2
      rcases h.1 with hc | hc
      · exact absurd (List.elem_iff.mp hc) hig
      · rw [hl] at hc
        exact hc
    · exact ih h.2 hbind

/-- A well-formed tree is synced with itself. -/
theorem synced_refl (e : Entry) : e.wf = true → synced e e = true := by
  induction e using Entry.lookup_induction with
  | step e IH =>
    intro hwf
    rcases e with ⟨c, m⟩ | cs
    · exact cmpShallow_of_eq
    · simp only [synced, Bool.and_eq_true]
      refine ⟨⟨?_, ?_⟩, ?_⟩
      · rw [List.all_eq_true]
        intro n hn
        simp only [Bool.or_eq_true]
        exact Or.inr (List.elem_iff.mpr hn)
      · rw [List.all_eq_true]
        intro n hn
        simp only [Bool.or_eq_true]
        exact Or.inr (List.elem_iff.mpr hn)
      · apply syncedChildren_of_forall
        intro n a hbind hig b hb
        have hl := EntryList.lookup_of_binds hwf hbind
        rw [hl] at hb
        cases hb
        exact IH cs n a rfl hl (EntryList.wf_of_lookup hwf hl)

/-- After one run on well-formed directory trees, the source and the new
replica are synced: a second classification finds nothing to do. -/
theorem compare_folders_synced (s : Entry) :
    ∀ (r : Entry) (src repl : List String),
      s.wf = true → r.wf = true → s.isDir = true → r.isDir = true →
      synced s (compare_folders s r src repl).1 = true := by
  induction s using Entry.lookup_induction with
  | step e IH =>
    intro r src repl hws hwr hds hdr
    rcases e with ⟨c, m⟩ | sc
    · cases hds
    rcases r with ⟨c, m⟩ | rc
    · cases hdr
    rw [compare_folders_dir_fst]
    simp only [synced, Bool.and_eq_true]
    refine ⟨⟨?_, ?_⟩, ?_⟩
    · rw [List.all_eq_true]
      intro n hn
      simp only [Bool.or_eq_true]
      by_cases hig : n ∈ DEFAULT_IGNORES
      · exact Or.inl (List.elem_iff.mpr hig)
      · exact Or.inr (List.elem_iff.mpr
          (mem_names_rcAfter4.mpr (Or.inl ⟨hn, hig⟩)))
    · rw [List.all_eq_true]
      intro n hn
      simp only [Bool.or_eq_true]
      by_cases hig : n ∈ DEFAULT_IGNORES
      · exact Or.inl (List.elem_iff.mpr hig)
      · refine Or.inr ?_
        rcases mem_names_rcAfter4.mp hn with ⟨h1, -⟩ | ⟨h1, h2⟩
        · exact List.elem_iff.mpr h1
        · by_cases hsn : n ∈ sc.names
          · exact List.elem_iff.mpr hsn
          · exact absurd (mem_right_only.mpr ⟨⟨h1, hsn⟩, hig⟩) h2
    · apply syncedChildren_of_forall
      intro n a hbind hig b4 hb4
      have ha : sc.lookup n = some a := EntryList.lookup_of_binds hws hbind
      have hwa : a.wf = true := EntryList.wf_of_lookup hws ha
      rcases hb : rc.lookup n with _ | b
      · -- source-only: copied verbatim, synced with itself
        have hlo : n ∈ left_only sc rc := mem_left_only.mpr
          ⟨⟨EntryList.mem_names_of_lookup ha,
           (EntryList.lookup_eq_none rc n).mp hb⟩, hig⟩
        rw [lookup_rcAfter4_left_only hws hlo ha] at hb4
        cases hb4
        exact synced_refl a hwa
      · rcases a with ⟨c1, m1⟩ | ach <;> rcases b with ⟨c2, m2⟩ | bch
        · rcases hcs : cmpShallow c1 m1 c2 m2 with _ | _
          · -- differing: overwritten with the source file, shallow-equal
            have hdf : n ∈ diff_files sc rc :=
              mem_diff_files.mpr ⟨⟨c1, m1, c2, m2, ha, hb, hcs⟩, hig⟩
            rw [lookup_rcAfter4_diff_files hws hdf ha] at hb4
            cases hb4
            exact cmpShallow_of_eq
          · -- shallow-identical: untouched, still shallow-identical
            have hcd : n ∉ common_dirs sc rc := by
              intro h
              rcases mem_common_dirs.mp h with ⟨⟨a2, b2, ha2, -⟩, -⟩
              rw [ha] at ha2
              cases ha2
            have hlo : n ∉ left_only sc rc := fun h =>
              (mem_left_only.mp h).1.2 (EntryList.mem_names_of_lookup hb)
            have hro : n ∉ right_only sc rc := fun h =>
              (mem_right_only.mp h).1.2 (EntryList.mem_names_of_lookup ha)
            have hdf : n ∉ diff_files sc rc := by
              intro h
              rcases mem_diff_files.mp h with ⟨⟨d1, k1, d2, k2, ha2, hb2, hc2⟩, -⟩
              rw [ha] at ha2
              cases ha2
              rw [hb] at hb2
              cases hb2
              rw [hcs] at hc2
              cases hc2
            rw [lookup_rcAfter4_frame hcd hlo hro hdf, hb] at hb4
            cases hb4
            exact hcs
        · -- funny pair: untouched, still allowed
          have hcd : n ∉ common_dirs sc rc := by
            intro h
            rcases mem_common_dirs.mp h with ⟨⟨a2, b2, ha2, -⟩, -⟩
            rw [ha] at ha2
            cases ha2
          have hlo : n ∉ left_only sc rc := fun h =>
            (mem_left_only.mp h).1.2 (EntryList.mem_names_of_lookup hb)
          have hro : n ∉ right_only sc rc := fun h =>
            (mem_right_only.mp h).1.2 (EntryList.mem_names_of_lookup ha)
          have hdf : n ∉ diff_files sc rc := by
            intro h
            rcases mem_diff_files.mp h with ⟨⟨d1, k1, d2, k2, -, hb2, -⟩, -⟩
            rw [hb] at hb2
            cases hb2
          rw [lookup_rcAfter4_frame hcd hlo hro hdf, hb] at hb4
          cases hb4
          rfl
        · -- funny pair the other way round
          have hcd : n ∉ common_dirs sc rc := by
            intro h
            rcases mem_common_dirs.mp h with ⟨⟨a2, b2, -, hb2⟩, -⟩
            rw [hb] at hb2
            cases hb2
          have hlo : n ∉ left_only sc rc := fun h =>
            (mem_left_only.mp h).1.2 (EntryList.mem_names_of_lookup hb)
          have hro : n ∉ right_only sc rc := fun h =>
            (mem_right_only.mp h).1.2 (EntryList.mem_names_of_lookup ha)
          have hdf : n ∉ diff_files sc rc := by
            intro h
            rcases mem_diff_files.mp h with ⟨⟨d1, k1, d2, k2, ha2, -, -⟩, -⟩
            rw [ha] at ha2
            cases ha2
          rw [lookup_rcAfter4_frame hcd hlo hro hdf, hb] at hb4
          cases hb4
          rfl
        · -- common directories: the recursive run syncs them
          have hcd : n ∈ common_dirs sc rc :=
            mem_common_dirs.mpr ⟨⟨ach, bch, ha, hb⟩, hig⟩
          rw [lookup_rcAfter4_common_dirs hws hcd ha hb] at hb4
          cases hb4
          exact IH sc n _ rfl ha (.dir bch) (src ++ [n]) (repl ++ [n])
            hwa (EntryList.wf_of_lookup hwr hb) rfl rfl

end SyncFolders

namespace SyncFolders

/-- A run on a synced directory pair performs no filesystem action and
emits no log record: the trace contains only visit markers. -/
theorem compare_folders_synced_no_actions (s : Entry) :
    ∀ (r : Entry) (src repl : List String),
      synced s r = true → s.isDir = true → r.isDir = true →
      actionsOf (compare_folders s r src repl).2.1 = [] := by
  induction s using Entry.binds_induction with
  | step e IH =>
    intro r src repl hsync hds hdr
    rcases e with ⟨c, m⟩ | sc
    · cases hds
    rcases r with ⟨c, m⟩ | rc
    · cases hdr
    simp only [synced, Bool.and_eq_true] at hsync
    rcases hsync with ⟨⟨hn1, hn2⟩, hsc⟩
    have hlo : left_only sc rc = [] := by
      rw [left_only, List.filter_eq_nil_iff]
      intro n hn
      rw [List.all_eq_true] at hn1
      have h1 := hn1 n hn
      simp only [Bool.or_eq_true] at h1
      simp only [Bool.and_eq_true, Bool.not_eq_true', not_and]
      intro hr
      rcases h1 with h1 | h1
      · simpa using h1
      · rw [h1] at hr
        cases hr
    have hro : right_only sc rc = [] := by
      rw [right_only, List.filter_eq_nil_iff]
      intro n hn
      rw [List.all_eq_true] at hn2
      have h1 := hn2 n hn
      simp only [Bool.or_eq_true] at h1
      simp only [Bool.and_eq_true, Bool.not_eq_true', not_and]
      intro hr
      rcases h1 with h1 | h1
      · simpa using h1
      · rw [h1] at hr
        cases hr
    have hdf : diff_files sc rc = [] := by
      rw [List.eq_nil_iff_forall_not_mem]
      intro n h
      rcases mem_diff_files.mp h with ⟨⟨c1, m1, c2, m2, ha, hb, hcs⟩, hig⟩
      have := syncedChildren_spec hsc (EntryList.binds_of_lookup ha) hig hb
      rw [show synced (.file c1 m1) (.file c2 m2) = cmpShallow c1 m1 c2 m2
        from rfl, hcs] at this
      cases this
    have hp2 : phase2 sc rc src repl = ([], [], Counters.zero) := by
      rw [phase2, hlo]
      rfl
    have hp3 : phase3 sc rc src repl = ([], Counters.zero) := by
      rw [phase3, hro]
      rfl
    have hp4 : phase4 sc rc src repl = ([], [], Counters.zero) := by
      rw [phase4, hdf]
      rfl
    rw [compare_folders_dir_trace, hp2, hp3, hp4]
    simp only [List.append_nil]
    rw [show actionsOf (Event.visit src repl :: (phase1 sc rc src repl).2.1) =
      actionsOf (phase1 sc rc src repl).2.1 from by simp [actionsOf, isAction]]
    rw [actionsOf_eq_nil]
    intro ev hev
    rcases compare_common_trace_mem_weak hev with ⟨n, a, hbind, hcds, hmem⟩
    rcases mem_common_dirs.mp hcds with ⟨⟨ach, bch, -, hb⟩, hig⟩
    rw [hb] at hmem
    rcases a with ⟨c1, m1⟩ | ach2
    · rw [compare_folders_file] at hmem
      cases hmem
    · have hsync2 : synced (.dir ach2) (.dir bch) = true :=
        syncedChildren_spec hsc hbind hig hb
      have hact := IH sc n _ rfl hbind (.dir bch)
        (src ++ [n]) (repl ++ [n]) hsync2 rfl rfl
      rw [actionsOf_eq_nil] at hact
      simp only [Option.getD_some] at hmem
      exact hact ev hmem

/-- Claim C3: a second reconciliation run immediately after a completed
run, with the source unchanged, performs zero filesystem actions (its
trace has no mutation and no log record) and ends with all three counters
at zero. -/
theorem claim_C3_idempotence (s r : Entry) (src repl : List String)
    (hws : s.wf = true) (hwr : r.wf = true) :
    actionsOf (compare_folders s (compare_folders s r src repl).1
      src repl).2.1 = [] ∧
    (compare_folders s (compare_folders s r src repl).1 src repl).2.2 =
      Counters.zero := by
  have hact : actionsOf (compare_folders s (compare_folders s r src repl).1
      src repl).2.1 = [] := by
    rcases s with ⟨c, m⟩ | sc
    · rw [compare_folders_file, compare_folders_file]
      rfl
    rcases r with ⟨c, m⟩ | rc
    · rw [compare_folders_dir_file, compare_folders_dir_file]
      rfl
    have hsync := compare_folders_synced (.dir sc) (.dir rc) src repl
      hws hwr rfl rfl
    rw [compare_folders_dir_fst] at hsync ⊢
    exact compare_folders_synced_no_actions (.dir sc)
      (.dir (rcAfter4 sc rc src repl)) src repl hsync rfl rfl
  refine ⟨hact, ?_⟩
  rw [compare_folders_tally]
  rw [countRecords_eq_zero_of_no_actions hact,
    countRecords_eq_zero_of_no_actions hact,
    countRecords_eq_zero_of_no_actions hact]
  rfl

/-- Claim C3, witness: after syncing a two-level source into an empty
replica, the second run performs no action and reports zero counters. -/
theorem claim_C3_witness :
    actionsOf (compare_folders
      (.dir (.cons "a.txt" (.file [88] 1)
        (.cons "sub" (.dir (.cons "b.txt" (.file [66] 2) .nil)) .nil)))
      (compare_folders
        (.dir (.cons "a.txt" (.file [88] 1)
          (.cons "sub" (.dir (.cons "b.txt" (.file [66] 2) .nil)) .nil)))
        (.dir .nil) ["S"] ["R"]).1 ["S"] ["R"]).2.1 = [] ∧
    (compare_folders
      (.dir (.cons "a.txt" (.file [88] 1)
        (.cons "sub" (.dir (.cons "b.txt" (.file [66] 2) .nil)) .nil)))
      (compare_folders
        (.dir (.cons "a.txt" (.file [88] 1)
          (.cons "sub" (.dir (.cons "b.txt" (.file [66] 2) .nil)) .nil)))
        (.dir .nil) ["S"] ["R"]).1 ["S"] ["R"]).2.2 = Counters.zero :=
  claim_C3_idempotence
    (.dir (.cons "a.txt" (.file [88] 1)
      (.cons "sub" (.dir (.cons "b.txt" (.file [66] 2) .nil)) .nil)))
    (.dir .nil) ["S"] ["R"] (by decide) rfl

end SyncFolders

namespace SyncFolders

/-! ## Claim C8: recursion into every common subdirectory, phases in order -/

mutual
/-- The event trace the specification prescribes for one reconciliation
call, written from the words of the spec: recurse into every common
subdirectory (regardless of the other categories), then copy the
source-only entries, then delete the replica-only entries (as classified,
against the classification-time replica listing), then overwrite the
differing files — with no guards. -/
def reconcileSpecTrace (s r : Entry) (src repl : List String) : List Event :=
  match s, r with
  | .dir sc, .dir rc =>
    Event.visit src repl ::
      (reconcileSpecChildren sc (common_dirs sc rc) rc src repl
        ++ (copy_files (left_only sc rc) sc src repl true).2.1
        ++ (delete_files (right_only sc rc) rc repl).1
        ++ (copy_files (diff_files sc rc) sc src repl false).2.1)
  | _, _ => []

/-- The recursion of the specified trace over every common subdirectory
name of the walked listing. -/
def reconcileSpecChildren (walk : EntryList) (cds : List String)
    (rc : EntryList) (src repl : List String) : List Event :=
  match walk with
  | .nil => []
  | .cons n a tl =>
    (if n ∈ cds then
      reconcileSpecTrace a ((rc.lookup n).getD (.dir .nil))
        (src ++ [n]) (repl ++ [n])
     else [])
      ++ reconcileSpecChildren tl cds rc src repl
end

theorem delete_files_congr (ns : List String) (l1 l2 : EntryList)
    (folder : List String) (h : ∀ n ∈ ns, l1.lookup n = l2.lookup n) :
    delete_files ns l1 folder = delete_files ns l2 folder := by
  induction ns with
  | nil => rfl
  | cons n rest ih =>
    have hn := h n (List.mem_cons_self _ _)
    have hrest := ih (fun m hm => h m (List.mem_cons_of_mem _ hm))
    simp only [delete_files, hn, hrest]

theorem phase3_eq_classification_listing (sc rc : EntryList)
    (src repl : List String) :
    phase3 sc rc src repl = delete_files (right_only sc rc) rc repl := by
  rw [phase3]
  apply delete_files_congr
  intro n hn
  have hns : n ∉ sc.names := (mem_right_only.mp hn).1.2
  have hcd : n ∉ common_dirs sc rc := fun h => hns (common_dirs_sub_src h)
  have hlo : n ∉ left_only sc rc := fun h => hns (mem_left_only.mp h).1.1
  exact lookup_rcAfter2_frame hcd hlo

theorem compare_common_eq_spec (walk : EntryList) (cds : List String)
    (rc : EntryList) (src repl : List String)
    (hQ : ∀ n a, walk.binds n a → ∀ (b : Entry) (src2 repl2 : List String),
      (compare_folders a b src2 repl2).2.1 = reconcileSpecTrace a b src2 repl2) :
    (compare_common walk cds rc src repl).2.1 =
      reconcileSpecChildren walk cds rc src repl := by
  induction walk with
  | nil => rfl
  | cons n a tl ih =>
    have htl := ih (fun m e hb => hQ m e (Or.inr hb))
    by_cases hc : n ∈ cds
    · rw [compare_common_cons_mem _ _ _ _ _ _ _ hc]
      simp only [reconcileSpecChildren, if_pos hc, htl,
        hQ n a (Or.inl ⟨rfl, rfl⟩)]
    · rw [compare_common_cons_not_mem _ _ _ _ _ _ _ hc]
      simp only [reconcileSpecChildren, if_neg hc, htl, List.nil_append]

/-- The trace of compare_folders is exactly the trace the specification
prescribes: recursion into every common subdirectory first, then the
creations, then the deletions, then the overwrites. -/
theorem compare_folders_trace_eq_spec (s : Entry) :
    ∀ (r : Entry) (src repl : List String),
      (compare_folders s r src repl).2.1 = reconcileSpecTrace s r src repl := by
  induction s using Entry.binds_induction with
  | step e IH =>
    intro r src repl
    rcases e with ⟨c, m⟩ | sc
    · rw [compare_folders_file]
      rfl
    rcases r with ⟨c, m⟩ | rc
    · rw [compare_folders_dir_file]
      rfl
    rw [compare_folders_dir_trace]
    rw [show reconcileSpecTrace (.dir sc) (.dir rc) src repl =
      Event.visit src repl ::
        (reconcileSpecChildren sc (common_dirs sc rc) rc src repl
          ++ (copy_files (left_only sc rc) sc src repl true).2.1
          ++ (delete_files (right_only sc rc) rc repl).1
          ++ (copy_files (diff_files sc rc) sc src repl false).2.1) from rfl]
    rw [phase3_eq_classification_listing, phase1, phase2, phase4]
    rw [compare_common_eq_spec sc (common_dirs sc rc) rc src repl
      (fun n a hb b src2 repl2 => IH sc n a rfl hb b src2 repl2)]

/-- The directory pairs the run visits: the root pair, and, from any
visited pair of directories, the pair under any common-subdirectory name. -/
inductive VisitsPair (s r : Entry) (src repl : List String) :
    Entry → Entry → List String → List String → Prop where
  | root : VisitsPair s r src repl s r src repl
  | step {ach bch : EntryList} {p q : List String} {n : String} {a b : Entry} :
      VisitsPair s r src repl (.dir ach) (.dir bch) p q →
      n ∈ common_dirs ach bch →
      ach.lookup n = some a → bch.lookup n = some b →
      VisitsPair s r src repl a b (p ++ [n]) (q ++ [n])

/-- Derivations compose: what is reachable from a reachable pair is
reachable from the root. -/
theorem VisitsPair.compose {s r : Entry} {src repl : List String}
    {a b : Entry} {p q : List String}
    (hbase : VisitsPair s r src repl a b p q) :
    ∀ {x y : Entry} {u v : List String},
      VisitsPair a b p q x y u v → VisitsPair s r src repl x y u v := by
  intro x y u v h
  induction h with
  | root => exact hbase
  | step h1 h2 h3 h4 ih => exact VisitsPair.step ih h2 h3 h4

theorem copy_files_no_visit {ns : List String} {sc : EntryList}
    {src dest : List String} {new : Bool} {p q : List String} :
    Event.visit p q ∉ (copy_files ns sc src dest new).2.1 := by
  induction ns with
  | nil => exact fun h => by cases h
  | cons n rest ih =>
    intro h
    rcases hl : sc.lookup n with _ | (⟨c, m⟩ | dch) <;>
      simp only [copy_files, hl, write_log] at h
    · exact ih h
    · rcases List.mem_append.mp h with h2 | h2
      · rcases List.mem_cons.mp h2 with h3 | h3
        · cases h3
        · rcases List.mem_cons.mp h3 with h4 | h4
          · cases h4
          · cases h4
      · exact ih h2
    · rcases List.mem_append.mp h with h2 | h2
      · rcases List.mem_cons.mp h2 with h3 | h3
        · cases h3
        · rcases List.mem_map.mp h3 with ⟨f, -, hrec⟩
          cases hrec
      · exact ih h2

theorem delete_files_no_visit {ns : List String} {rc : EntryList}
    {folder : List String} {p q : List String} :
    Event.visit p q ∉ (delete_files ns rc folder).1 := by
  induction ns with
  | nil => exact fun h => by cases h
  | cons n rest ih =>
    intro h
    rcases hl : rc.lookup n with _ | (⟨c, m⟩ | dch) <;>
      simp only [delete_files, hl, write_log] at h
    · exact ih h
    · rcases List.mem_append.mp h with h2 | h2
      · rcases List.mem_cons.mp h2 with h3 | h3
        · cases h3
        · rcases List.mem_cons.mp h3 with h4 | h4
          · cases h4
          · cases h4
      · exact ih h2
    · rcases List.mem_append.mp h with h2 | h2
      · rcases List.mem_append.mp h2 with h3 | h3
        · rcases List.mem_map.mp h3 with ⟨f, -, hrec⟩
          cases hrec
        · rcases List.mem_singleton.mp h3 with h4
          cases h4
      · exact ih h2

/-- A recursive call's trace is contained in the caller's trace, through a
common-subdirectory name of the source listing. -/
theorem compare_common_trace_super {walk : EntryList} {cds : List String}
    {rc : EntryList} {src repl : List String} {n : String} {a : Entry}
    (hl : walk.lookup n = some a) (hc : n ∈ cds) {e : Event}
    (he : e ∈ (compare_folders a ((rc.lookup n).getD (.dir .nil))
      (src ++ [n]) (repl ++ [n])).2.1) :
    e ∈ (compare_common walk cds rc src repl).2.1 := by
  induction walk with
  | nil => cases hl
  | cons n0 a0 tl ih =>
    by_cases h0 : n0 = n
    · subst h0
      have ha : a0 = a := by simpa [EntryList.lookup] using hl
      subst ha
      rw [compare_common_cons_mem _ _ _ _ _ _ _ hc]
      exact List.mem_append.mpr (Or.inl he)
    · have hl2 : tl.lookup n = some a := by
        simpa [EntryList.lookup, h0] using hl
      by_cases hc0 : n0 ∈ cds
      · rw [compare_common_cons_mem _ _ _ _ _ _ _ hc0]
        exact List.mem_append.mpr (Or.inr (ih hl2))
      · rw [compare_common_cons_not_mem _ _ _ _ _ _ _ hc0]
        exact ih hl2

/-- Every reachable directory pair's visit marker occurs in the root
trace. -/
theorem visits_of_reachable {s r : Entry} {src repl : List String}
    (hds : s.isDir = true) (hdr : r.isDir = true) :
    ∀ {a b : Entry} {p q : List String},
      VisitsPair s r src repl a b p q →
      ∀ e ∈ (compare_folders a b p q).2.1,
        e ∈ (compare_folders s r src repl).2.1 := by
  intro a b p q h
  induction h with
  | root => exact fun e he => he
  | step h1 h2 h3 h4 ih =>
    intro e he
    apply ih
    rw [compare_folders_dir_trace]
    refine List.mem_cons_of_mem _ ?_
    refine List.mem_append.mpr (Or.inl ?_)
    refine List.mem_append.mpr (Or.inl ?_)
    refine List.mem_append.mpr (Or.inl ?_)
    rw [phase1]
    rcases mem_common_dirs.mp h2 with ⟨⟨ach2, bch2, ha2, hb2⟩, -⟩
    apply compare_common_trace_super h3 h2
    rw [h3] at ha2
    rw [h4] at hb2
    cases ha2
    cases hb2
    rw [h4]
    exact he

/-- A visit marker in the trace comes from a reachable pair. -/
theorem reachable_of_visit (s : Entry) :
    ∀ (r : Entry) (src repl : List String), s.wf = true → r.wf = true →
      ∀ p q, Event.visit p q ∈ (compare_folders s r src repl).2.1 →
      ∃ a b, VisitsPair s r src repl a b p q := by
  induction s using Entry.lookup_induction with
  | step e IH =>
    intro r src repl hws hwr p q hv
    rcases e with ⟨c, m⟩ | sc
    · rw [compare_folders_file] at hv
      cases hv
    rcases r with ⟨c, m⟩ | rc
    · rw [compare_folders_dir_file] at hv
      cases hv
    rw [compare_folders_dir_trace] at hv
    rcases List.mem_cons.mp hv with h | h
    · cases h
      exact ⟨.dir sc, .dir rc, VisitsPair.root⟩
    rcases List.mem_append.mp h with h | h4
    rcases List.mem_append.mp h with h | h3
    rcases List.mem_append.mp h with h1 | h2
    · rcases compare_common_trace_mem hws h1 with ⟨n, a, hl, hcds, hmem⟩
      rcases mem_common_dirs.mp hcds with ⟨⟨ach, bch, ha2, hb2⟩, -⟩
      rw [hl] at ha2
      cases ha2
      rw [hb2] at hmem
      simp only [Option.getD_some] at hmem
      rcases IH sc n _ rfl hl (.dir bch) (src ++ [n]) (repl ++ [n])
        (EntryList.wf_of_lookup hws hl) (EntryList.wf_of_lookup hwr hb2)
        p q hmem with ⟨x, y, hxy⟩
      exact ⟨x, y, VisitsPair.compose
        (VisitsPair.step VisitsPair.root hcds hl hb2) hxy⟩
    · exact absurd h2 copy_files_no_visit
    · exact absurd h3 delete_files_no_visit
    · exact absurd h4 copy_files_no_visit

/-- Claim C8, counterexample to the unamended claim: a directory named
.git exists on both sides, yet dircmp's default ignore filter keeps it out
of common_dirs, the run never visits the pair beneath it, and the run as a
whole does nothing — so the script does not recurse into every same-named
directory pair. -/
theorem claim_C8_counterexample :
    ((EntryList.cons ".git" (.dir (.cons "x" (.file [5] 0) .nil))
        .nil).lookup ".git" =
      some (.dir (.cons "x" (.file [5] 0) .nil))) ∧
    ((EntryList.cons ".git" (.dir .nil) .nil).lookup ".git" =
      some (.dir .nil)) ∧
    ".git" ∉ common_dirs
      (.cons ".git" (.dir (.cons "x" (.file [5] 0) .nil)) .nil)
      (.cons ".git" (.dir .nil) .nil) ∧
    Event.visit ["S", ".git"] ["R", ".git"] ∉
      (compare_folders
        (.dir (.cons ".git" (.dir (.cons "x" (.file [5] 0) .nil)) .nil))
        (.dir (.cons ".git" (.dir .nil) .nil)) ["S"] ["R"]).2.1 ∧
    actionsOf (compare_folders
        (.dir (.cons ".git" (.dir (.cons "x" (.file [5] 0) .nil)) .nil))
        (.dir (.cons ".git" (.dir .nil) .nil)) ["S"] ["R"]).2.1 = [] := by
  refine ⟨rfl, rfl, by decide, by decide, by decide⟩

/-- Claim C8, amended: the run's trace is exactly the specified one —
recursion into the common subdirectories as dircmp computes them (the
same-named directory pairs whose name is not on filecmp's default ignore
list), never short-circuited by the other categories, then source-only
copies, then replica-only deletions, then differing-file overwrites — and
the visited pairs are exactly the pairs reachable through chains of
common-subdirectory names. -/
theorem claim_C8_traversal (s r : Entry) (src repl : List String)
    (hws : s.wf = true) (hwr : r.wf = true)
    (hds : s.isDir = true) (hdr : r.isDir = true) :
    (compare_folders s r src repl).2.1 = reconcileSpecTrace s r src repl ∧
    (∀ p q, Event.visit p q ∈ (compare_folders s r src repl).2.1 ↔
      ∃ a b, VisitsPair s r src repl a b p q) := by
  refine ⟨compare_folders_trace_eq_spec s r src repl, fun p q => ⟨?_, ?_⟩⟩
  · exact fun hv => reachable_of_visit s r src repl hws hwr p q hv
  · rintro ⟨a, b, hab⟩
    have hd : a.isDir = true ∧ b.isDir = true := by
      cases hab with
      | root => exact ⟨hds, hdr⟩
      | step h1 h2 h3 h4 =>
        rcases mem_common_dirs.mp h2 with ⟨⟨x, y, hx, hy⟩, -⟩
        rw [h3] at hx
        rw [h4] at hy
        cases hx
        cases hy
        exact ⟨rfl, rfl⟩
    rcases a with ⟨c, m⟩ | ach
    · cases hd.1
    rcases b with ⟨c, m⟩ | bch
    · cases hd.2
    apply visits_of_reachable hds hdr hab
    rw [compare_folders_dir_trace]
    exact List.mem_cons_self _ _

/-- Claim C8, witness: with a common subdirectory sub present on both
sides, the trace equals the specified trace and the pair under sub is
visited. -/
theorem claim_C8_witness :
    (compare_folders
      (.dir (.cons "sub" (.dir (.cons "x" (.file [5] 0) .nil)) .nil))
      (.dir (.cons "sub" (.dir .nil) .nil)) ["S"] ["R"]).2.1 =
      reconcileSpecTrace
        (.dir (.cons "sub" (.dir (.cons "x" (.file [5] 0) .nil)) .nil))
        (.dir (.cons "sub" (.dir .nil) .nil)) ["S"] ["R"] ∧
    ∃ a b, VisitsPair
      (.dir (.cons "sub" (.dir (.cons "x" (.file [5] 0) .nil)) .nil))
      (.dir (.cons "sub" (.dir .nil) .nil)) ["S"] ["R"] a b
      ["S", "sub"] ["R", "sub"] := by
  have h := claim_C8_traversal
    (.dir (.cons "sub" (.dir (.cons "x" (.file [5] 0) .nil)) .nil))
    (.dir (.cons "sub" (.dir .nil) .nil)) ["S"] ["R"]
    (by decide) (by decide) rfl rfl
  refine ⟨h.1, (h.2 ["S", "sub"] ["R", "sub"]).mp ?_⟩
  decide

end SyncFolders

namespace SyncFolders

/-! ## Claim C7: fatal error propagation

The script installs no exception handler, so the first OSError raised by a
filesystem call aborts the whole recursion.  The model below re-runs the
reconciliation against an error oracle that decides which filesystem calls
fail; the theorem shows that the faulty run performs exactly the prefix of
the error-free run's events up to the first failing call, returns that
call's error from the whole recursion, and — when nothing fails — equals
the error-free run. -/

/-- The error taxonomy of the specification. -/
inductive FsError : Type where
  | notFound
  | permissionDenied
  | ioError
deriving DecidableEq, Repr

/-- A fallible filesystem call: a listing (os.listdir via filecmp.dircmp)
or one of the four mutations. -/
inductive FsOp : Type where
  | listdir (p : List String)
  | mutate (m : MutOp)
deriving DecidableEq, Repr

/-- The fallible calls an event performs, in execution order: a visit
lists both directories; a mutation event performs its call; writing a log
record is not modelled as fallible. -/
def eventOps : Event → List FsOp
  | .visit sp rp => [.listdir sp, .listdir rp]
  | .mut m => [.mutate m]
  | .record _ => []

/-- The first error an oracle assigns to a sequence of calls. -/
def checkOps (oracle : FsOp → Option FsError) : List FsOp → Option FsError
  | [] => none
  | op :: rest =>
    match oracle op with
    | some e => some e
    | none => checkOps oracle rest

/-- The first error an oracle assigns to an event's calls. -/
def checkEvent (oracle : FsOp → Option FsError) (e : Event) :
    Option FsError :=
  checkOps oracle (eventOps e)

/-- Truncate a trace at the first event one of whose calls fails: the
events before it are performed, the failing event and everything after it
are not, and the failure is reported. -/
def runUntilFail (oracle : FsOp → Option FsError) :
    List Event → List Event × Option FsError
  | [] => ([], none)
  | e :: rest =>
    match checkEvent oracle e with
    | some err => ([], some err)
    | none =>
      let t := runUntilFail oracle rest
      (e :: t.1, t.2)

/-- copy_files under the error oracle: each shutil call consults the
oracle; the first failure stops the loop, emits nothing for the failing
entry, and propagates the error (Python raises out of the loop). -/
def copy_filesE (oracle : FsOp → Option FsError) :
    List String → EntryList → List String → List String → Bool →
    List (String × Entry) × List Event × Counters × Option FsError
  | [], _, _, _, _ => ([], [], Counters.zero, none)
  | n :: rest, sc, src, dest, new =>
    let srcpath := src ++ [n]
    match sc.lookup n with
    | some (Entry.dir dch) =>
      match oracle (.mutate (.copytree srcpath (dest ++ [n]))) with
      | some err => ([], [], Counters.zero, some err)
      | none =>
        let tail := copy_filesE oracle rest sc src dest new
        ((n, Entry.dir dch) :: tail.1,
         (Event.mut (MutOp.copytree srcpath (dest ++ [n])) ::
           dch.names.map (fun f =>
             write_log (if new then .create else .copy) (srcpath ++ [f])))
           ++ tail.2.1,
         (if new then (⟨dch.names.length, 0, 0⟩ : Counters)
          else ⟨0, dch.names.length, 0⟩) + tail.2.2.1,
         tail.2.2.2)
    | some (Entry.file c m) =>
      match oracle (.mutate (.copy2 srcpath dest)) with
      | some err => ([], [], Counters.zero, some err)
      | none =>
        let tail := copy_filesE oracle rest sc src dest new
        ((n, Entry.file c m) :: tail.1,
         [Event.mut (MutOp.copy2 srcpath dest),
          write_log (if new then .create else .copy) srcpath] ++ tail.2.1,
         (if new then (⟨1, 0, 0⟩ : Counters) else ⟨0, 1, 0⟩) + tail.2.2.1,
         tail.2.2.2)
    | none => copy_filesE oracle rest sc src dest new

/-- delete_files under the error oracle: for a directory the per-child
records and counter increments happen before shutil.rmtree, so they are
kept even when the rmtree call fails; the first failure stops the loop and
propagates.  Returns the names actually removed. -/
def delete_filesE (oracle : FsOp → Option FsError) :
    List String → EntryList → List String →
    List String × List Event × Counters × Option FsError
  | [], _, _ => ([], [], Counters.zero, none)
  | n :: rest, rc, folder =>
    let srcpath := folder ++ [n]
    match rc.lookup n with
    | some (Entry.dir dch) =>
      match oracle (.mutate (.rmtree srcpath)) with
      | some err =>
        ([], dch.names.map (fun f => write_log .delete (srcpath ++ [f])),
         ⟨0, 0, dch.names.length⟩, some err)
      | none =>
        let tail := delete_filesE oracle rest rc folder
        (n :: tail.1,
         (dch.names.map (fun f => write_log .delete (srcpath ++ [f]))
           ++ [Event.mut (MutOp.rmtree srcpath)]) ++ tail.2.1,
         (⟨0, 0, dch.names.length⟩ : Counters) + tail.2.2.1,
         tail.2.2.2)
    | some (Entry.file c m) =>
      match oracle (.mutate (.remove srcpath)) with
      | some err => ([], [], Counters.zero, some err)
      | none =>
        let tail := delete_filesE oracle rest rc folder
        (n :: tail.1,
         [Event.mut (MutOp.remove srcpath), write_log .delete srcpath]
           ++ tail.2.1,
         (⟨0, 0, 1⟩ : Counters) + tail.2.2.1,
         tail.2.2.2)
    | none => delete_filesE oracle rest rc folder

mutual
/-- compare_folders under the error oracle: dircmp lists both directories
first; each phase runs until its first failure; a failure anywhere aborts
every later phase and propagates out of the recursion unchanged.  The
replica value reflects exactly the mutations performed before the
failure. -/
def compare_foldersE (oracle : FsOp → Option FsError) (s r : Entry)
    (src repl : List String) :
    Entry × List Event × Counters × Option FsError :=
  match s, r with
  | .dir sc, .dir rc =>
    match oracle (.listdir src) with
    | some err => (.dir rc, [], Counters.zero, some err)
    | none =>
      match oracle (.listdir repl) with
      | some err => (.dir rc, [], Counters.zero, some err)
      | none =>
        let p1 := compare_commonE oracle sc (common_dirs sc rc) rc src repl
        let rc1 := rc.setAll p1.1
        match p1.2.2.2 with
        | some err =>
          (.dir rc1, Event.visit src repl :: p1.2.1, p1.2.2.1, some err)
        | none =>
          let p2 := copy_filesE oracle (left_only sc rc) sc src repl true
          let rc2 := rc1.setAll p2.1
          match p2.2.2.2 with
          | some err =>
            (.dir rc2, Event.visit src repl :: (p1.2.1 ++ p2.2.1),
             p1.2.2.1 + p2.2.2.1, some err)
          | none =>
            let p3 := delete_filesE oracle (right_only sc rc) rc2 repl
            let rc3 := rc2.removeAll p3.1
            match p3.2.2.2 with
            | some err =>
              (.dir rc3,
               Event.visit src repl :: (p1.2.1 ++ p2.2.1 ++ p3.2.1),
               p1.2.2.1 + (p2.2.2.1 + p3.2.2.1), some err)
            | none =>
              let p4 := copy_filesE oracle (diff_files sc rc) sc src repl false
              let rc4 := rc3.setAll p4.1
              (.dir rc4,
               Event.visit src repl ::
                 (p1.2.1 ++ p2.2.1 ++ p3.2.1 ++ p4.2.1),
               p1.2.2.1 + (p2.2.2.1 + (p3.2.2.1 + p4.2.2.1)),
               p4.2.2.2)
  | _, r => (r, [], Counters.zero, none)

/-- The common-directory recursion under the error oracle: the first
failing recursive call keeps its partial subtree in place and stops the
loop. -/
def compare_commonE (oracle : FsOp → Option FsError) (walk : EntryList)
    (cds : List String) (rc : EntryList) (src repl : List String) :
    List (String × Entry) × List Event × Counters × Option FsError :=
  match walk with
  | .nil => ([], [], Counters.zero, none)
  | .cons n a tl =>
    if n ∈ cds then
      let head := compare_foldersE oracle a ((rc.lookup n).getD (.dir .nil))
        (src ++ [n]) (repl ++ [n])
      match head.2.2.2 with
      | some err => ([(n, head.1)], head.2.1, head.2.2.1, some err)
      | none =>
        let tail := compare_commonE oracle tl cds rc src repl
        ((n, head.1) :: tail.1, head.2.1 ++ tail.2.1,
         head.2.2.1 + tail.2.2.1, tail.2.2.2)
    else compare_commonE oracle tl cds rc src repl
end

end SyncFolders

namespace SyncFolders

theorem checkEvent_record (oracle : FsOp → Option FsError) (r : LogRecord) :
    checkEvent oracle (Event.record r) = none := rfl

theorem checkEvent_mut (oracle : FsOp → Option FsError) (m : MutOp) :
    checkEvent oracle (Event.mut m) = oracle (.mutate m) := by
  rcases h : oracle (.mutate m) with _ | e <;>
    simp [checkEvent, eventOps, checkOps, h]

theorem runUntilFail_cons_ok {oracle : FsOp → Option FsError} {e : Event}
    (t : List Event) (h : checkEvent oracle e = none) :
    runUntilFail oracle (e :: t) =
      (e :: (runUntilFail oracle t).1, (runUntilFail oracle t).2) := by
  simp [runUntilFail, h]

theorem runUntilFail_cons_err {oracle : FsOp → Option FsError} {e : Event}
    {err : FsError} (t : List Event) (h : checkEvent oracle e = some err) :
    runUntilFail oracle (e :: t) = ([], some err) := by
  simp [runUntilFail, h]

theorem runUntilFail_ok_fst {oracle : FsOp → Option FsError}
    {t : List Event} (h : (runUntilFail oracle t).2 = none) :
    (runUntilFail oracle t).1 = t := by
  induction t with
  | nil => rfl
  | cons e rest ih =>
    rcases hc : checkEvent oracle e with _ | err
    · rw [runUntilFail_cons_ok rest hc] at h ⊢
      simp only at h ⊢
      rw [ih h]
    · rw [runUntilFail_cons_err rest hc] at h
      cases h

theorem runUntilFail_append_ok {oracle : FsOp → Option FsError}
    {t1 : List Event} (t2 : List Event)
    (h : (runUntilFail oracle t1).2 = none) :
    runUntilFail oracle (t1 ++ t2) =
      (t1 ++ (runUntilFail oracle t2).1, (runUntilFail oracle t2).2) := by
  induction t1 with
  | nil => simp [runUntilFail]
  | cons e rest ih =>
    rcases hc : checkEvent oracle e with _ | err
    · rw [runUntilFail_cons_ok rest hc] at h
      simp only at h
      rw [List.cons_append, runUntilFail_cons_ok _ hc, ih h]
      rfl
    · rw [runUntilFail_cons_err rest hc] at h
      cases h

theorem runUntilFail_append_err {oracle : FsOp → Option FsError}
    {t1 : List Event} {err : FsError} (t2 : List Event)
    (h : (runUntilFail oracle t1).2 = some err) :
    runUntilFail oracle (t1 ++ t2) = runUntilFail oracle t1 := by
  induction t1 with
  | nil => rw [runUntilFail] at h; cases h
  | cons e rest ih =>
    rcases hc : checkEvent oracle e with _ | e2
    · rw [runUntilFail_cons_ok rest hc] at h
      simp only at h
      rw [List.cons_append, runUntilFail_cons_ok _ hc, ih h,
        runUntilFail_cons_ok rest hc]
    · rw [List.cons_append, runUntilFail_cons_err _ hc,
        runUntilFail_cons_err rest hc]

theorem runUntilFail_records {oracle : FsOp → Option FsError}
    (g : String → Event) (hg : ∀ f, ∃ r, g f = Event.record r)
    (l : List String) :
    (runUntilFail oracle (l.map g)).2 = none ∧
    (runUntilFail oracle (l.map g)).1 = l.map g := by
  induction l with
  | nil => exact ⟨rfl, rfl⟩
  | cons x xs ih =>
    rcases hg x with ⟨r, hr⟩
    rw [List.map_cons, hr, runUntilFail_cons_ok _ (checkEvent_record _ r)]
    exact ⟨ih.1, by simp only; rw [ih.2]⟩

theorem copy_filesE_spec (oracle : FsOp → Option FsError) (ns : List String)
    (sc : EntryList) (src dest : List String) (new : Bool) :
    (copy_filesE oracle ns sc src dest new).2.1 =
      (runUntilFail oracle (copy_files ns sc src dest new).2.1).1 ∧
    (copy_filesE oracle ns sc src dest new).2.2.2 =
      (runUntilFail oracle (copy_files ns sc src dest new).2.1).2 ∧
    ((runUntilFail oracle (copy_files ns sc src dest new).2.1).2 = none →
      copy_filesE oracle ns sc src dest new =
        ((copy_files ns sc src dest new).1,
         (copy_files ns sc src dest new).2.1,
         (copy_files ns sc src dest new).2.2, none)) := by
  induction ns with
  | nil => exact ⟨rfl, rfl, fun _ => rfl⟩
  | cons n rest ih =>
    rcases hl : sc.lookup n with _ | (⟨c, m⟩ | dch)
    · simp only [copy_files, copy_filesE, hl, List.nil_append,
        Counters.zero_add]
      exact ih
    · rcases ho : oracle (.mutate (.copy2 (src ++ [n]) dest)) with _ | err
      · have hrun : runUntilFail oracle
            (copy_files (n :: rest) sc src dest new).2.1 =
            (Event.mut (MutOp.copy2 (src ++ [n]) dest) ::
              write_log (if new then .create else .copy) (src ++ [n]) ::
                (runUntilFail oracle
                  (copy_files rest sc src dest new).2.1).1,
             (runUntilFail oracle
               (copy_files rest sc src dest new).2.1).2) := by
          simp only [copy_files, hl, write_log, List.cons_append,
            List.nil_append]
          rw [runUntilFail_cons_ok _ (by rw [checkEvent_mut]; exact ho),
            runUntilFail_cons_ok _ (checkEvent_record _ _)]
        refine ⟨?_, ?_, ?_⟩
        · rw [hrun]
          simp only [copy_filesE, hl, ho, write_log]
          rw [ih.1]
          rfl
        · rw [hrun]
          simp only [copy_filesE, hl, ho]
          exact ih.2.1
        · intro hok
          rw [hrun] at hok
          simp only at hok
          have h3 := ih.2.2 hok
          simp only [copy_filesE, hl, ho, copy_files, write_log, h3]
          rfl
      · have hrun : runUntilFail oracle
            (copy_files (n :: rest) sc src dest new).2.1 =
            ([], some err) := by
          simp only [copy_files, hl, write_log, List.cons_append,
            List.nil_append]
          rw [runUntilFail_cons_err _ (by rw [checkEvent_mut]; exact ho)]
        refine ⟨?_, ?_, ?_⟩
        · simp only [copy_filesE, hl, ho, hrun]
        · simp only [copy_filesE, hl, ho, hrun]
        · intro hok
          rw [hrun] at hok
          cases hok
    · rcases ho : oracle (.mutate (.copytree (src ++ [n]) (dest ++ [n])))
        with _ | err
      · have hrec := @runUntilFail_records oracle
          (fun f => Event.record ⟨if new = true then .create else .copy,
            src ++ [n] ++ [f]⟩) (fun f => ⟨_, rfl⟩) dch.names
        have hrun : runUntilFail oracle
            (copy_files (n :: rest) sc src dest new).2.1 =
            (Event.mut (MutOp.copytree (src ++ [n]) (dest ++ [n])) ::
              (dch.names.map (fun f =>
                write_log (if new then .create else .copy)
                  (src ++ [n] ++ [f])) ++
                (runUntilFail oracle
                  (copy_files rest sc src dest new).2.1).1),
             (runUntilFail oracle
               (copy_files rest sc src dest new).2.1).2) := by
          simp only [copy_files, hl, write_log, List.cons_append]
          rw [runUntilFail_cons_ok _ (by rw [checkEvent_mut]; exact ho)]
          rw [runUntilFail_append_ok _ hrec.1]
        refine ⟨?_, ?_, ?_⟩
        · rw [hrun]
          simp only [copy_filesE, hl, ho, write_log]
          rw [ih.1]
          simp [List.cons_append]
        · rw [hrun]
          simp only [copy_filesE, hl, ho]
          exact ih.2.1
        · intro hok
          rw [hrun] at hok
          simp only at hok
          have h3 := ih.2.2 hok
          simp only [copy_filesE, hl, ho, copy_files, write_log, h3]
          rfl
      · have hrun : runUntilFail oracle
            (copy_files (n :: rest) sc src dest new).2.1 =
            ([], some err) := by
          simp only [copy_files, hl, write_log, List.cons_append]
          rw [runUntilFail_cons_err _ (by rw [checkEvent_mut]; exact ho)]
        refine ⟨?_, ?_, ?_⟩
        · simp only [copy_filesE, hl, ho, hrun]
        · simp only [copy_filesE, hl, ho, hrun]
        · intro hok
          rw [hrun] at hok
          cases hok

end SyncFolders

namespace SyncFolders

theorem EntryList.remove_not_mem {l : EntryList} {n : String}
    (h : n ∉ l.names) : l.remove n = l := by
  induction l with
  | nil => rfl
  | cons m a tl ih =>
    simp only [EntryList.names, List.mem_cons] at h
    push_neg at h
    rw [EntryList.remove, if_neg (fun hq => h.1 hq.symm), ih h.2]

theorem removeAll_filter (l : EntryList) (ns : List String)
    (p : String → Bool)
    (h : ∀ n ∈ ns, n ∉ ns.filter p → n ∉ l.names) :
    l.removeAll (ns.filter p) = l.removeAll ns := by
  induction ns generalizing l with
  | nil => rfl
  | cons n rest ih =>
    rcases hp : p n with _ | _
    · have hnf : (n :: rest).filter p = rest.filter p := by
        simp [List.filter_cons, hp]
      have hn : n ∉ l.names := by
        apply h n (List.mem_cons_self _ _)
        rw [hnf]
        intro hmem
        have hpm := List.of_mem_filter hmem
        rw [hp] at hpm
        cases hpm
      rw [hnf, EntryList.removeAll_cons, EntryList.remove_not_mem hn]
      apply ih
      intro m hm hmf
      exact h m (List.mem_cons_of_mem _ hm) (by rw [hnf]; exact hmf)
    · have hnf : (n :: rest).filter p = n :: rest.filter p := by
        simp [List.filter_cons, hp]
      rw [hnf, EntryList.removeAll_cons, EntryList.removeAll_cons]
      apply ih
      intro m hm hmf
      rw [EntryList.mem_names_remove]
      rintro ⟨hmem, hmn⟩
      refine h m (List.mem_cons_of_mem _ hm) ?_ hmem
      rw [hnf]
      intro hq
      rcases List.mem_cons.mp hq with hq | hq
      · exact hmn hq
      · exact hmf hq

theorem removeAll_filter_isSome (l : EntryList) (ns : List String) :
    l.removeAll (ns.filter (fun n => (l.lookup n).isSome)) =
      l.removeAll ns := by
  apply removeAll_filter
  intro n hn hnf
  rcases hl : l.lookup n with _ | e
  · exact (EntryList.lookup_eq_none l n).mp hl
  · exact absurd (List.mem_filter.mpr ⟨hn, by rw [hl]; rfl⟩) hnf

theorem delete_filesE_spec (oracle : FsOp → Option FsError)
    (ns : List String) (rc : EntryList) (folder : List String) :
    (delete_filesE oracle ns rc folder).2.1 =
      (runUntilFail oracle (delete_files ns rc folder).1).1 ∧
    (delete_filesE oracle ns rc folder).2.2.2 =
      (runUntilFail oracle (delete_files ns rc folder).1).2 ∧
    ((runUntilFail oracle (delete_files ns rc folder).1).2 = none →
      delete_filesE oracle ns rc folder =
        (ns.filter (fun n => (rc.lookup n).isSome),
         (delete_files ns rc folder).1,
         (delete_files ns rc folder).2, none)) := by
  induction ns with
  | nil => exact ⟨rfl, rfl, fun _ => rfl⟩
  | cons n rest ih =>
    rcases hl : rc.lookup n with _ | (⟨c, m⟩ | dch)
    · simp only [delete_files, delete_filesE, hl, List.nil_append,
        Counters.zero_add, List.filter_cons]
      refine ⟨ih.1, ih.2.1, fun hok => ?_⟩
      simpa using ih.2.2 hok
    · rcases ho : oracle (.mutate (.remove (folder ++ [n]))) with _ | err
      · have hrun : runUntilFail oracle
            (delete_files (n :: rest) rc folder).1 =
            (Event.mut (MutOp.remove (folder ++ [n])) ::
              write_log .delete (folder ++ [n]) ::
                (runUntilFail oracle (delete_files rest rc folder).1).1,
             (runUntilFail oracle (delete_files rest rc folder).1).2) := by
          simp only [delete_files, hl, write_log, List.cons_append,
            List.nil_append]
          rw [runUntilFail_cons_ok _ (by rw [checkEvent_mut]; exact ho),
            runUntilFail_cons_ok _ (checkEvent_record _ _)]
        refine ⟨?_, ?_, ?_⟩
        · rw [hrun]
          simp only [delete_filesE, hl, ho, write_log]
          rw [ih.1]
          rfl
        · rw [hrun]
          simp only [delete_filesE, hl, ho]
          exact ih.2.1
        · intro hok
          rw [hrun] at hok
          simp only at hok
          have h3 := ih.2.2 hok
          simp only [delete_filesE, hl, ho, delete_files, write_log, h3,
            List.filter_cons]
          simp
      · have hrun : runUntilFail oracle
            (delete_files (n :: rest) rc folder).1 =
            ([], some err) := by
          simp only [delete_files, hl, write_log, List.cons_append,
            List.nil_append]
          rw [runUntilFail_cons_err _ (by rw [checkEvent_mut]; exact ho)]
        refine ⟨?_, ?_, ?_⟩
        · simp only [delete_filesE, hl, ho, hrun]
        · simp only [delete_filesE, hl, ho, hrun]
        · intro hok
          rw [hrun] at hok
          cases hok
    · have hrec := @runUntilFail_records oracle
        (fun f => Event.record ⟨.delete, folder ++ [n, f]⟩)
        (fun f => ⟨_, rfl⟩) dch.names
      rcases ho : oracle (.mutate (.rmtree (folder ++ [n]))) with _ | err
      · have hrun : runUntilFail oracle
            (delete_files (n :: rest) rc folder).1 =
            (dch.names.map (fun f =>
                Event.record ⟨.delete, folder ++ [n, f]⟩) ++
              Event.mut (MutOp.rmtree (folder ++ [n])) ::
                (runUntilFail oracle (delete_files rest rc folder).1).1,
             (runUntilFail oracle (delete_files rest rc folder).1).2) := by
          simp only [delete_files, hl, write_log, List.append_assoc,
            List.singleton_append]
          rw [runUntilFail_append_ok _ hrec.1,
            runUntilFail_cons_ok _ (by rw [checkEvent_mut]; exact ho)]
        refine ⟨?_, ?_, ?_⟩
        · rw [hrun]
          simp only [delete_filesE, hl, ho, write_log]
          rw [ih.1]
          simp [List.append_assoc]
        · rw [hrun]
          simp only [delete_filesE, hl, ho]
          exact ih.2.1
        · intro hok
          rw [hrun] at hok
          simp only at hok
          have h3 := ih.2.2 hok
          simp only [delete_filesE, hl, ho, delete_files, write_log, h3,
            List.filter_cons]
          simp
      · have hrun : runUntilFail oracle
            (delete_files (n :: rest) rc folder).1 =
            (dch.names.map (fun f =>
              Event.record ⟨.delete, folder ++ [n, f]⟩), some err) := by
          simp only [delete_files, hl, write_log, List.append_assoc,
            List.singleton_append]
          rw [runUntilFail_append_ok _ hrec.1,
            runUntilFail_cons_err _ (by rw [checkEvent_mut]; exact ho)]
          rw [List.append_nil]
        refine ⟨?_, ?_, ?_⟩
        · simp only [delete_filesE, hl, ho, hrun, write_log]
          simp [List.append_assoc]
        · simp only [delete_filesE, hl, ho, hrun]
        · intro hok
          rw [hrun] at hok
          cases hok

end SyncFolders

namespace SyncFolders

theorem checkEvent_visit (oracle : FsOp → Option FsError)
    (sp rp : List String) :
    checkEvent oracle (Event.visit sp rp) =
      (match oracle (.listdir sp) with
       | some e => some e
       | none => oracle (.listdir rp)) := by
  rcases h1 : oracle (.listdir sp) with _ | e1 <;>
    rcases h2 : oracle (.listdir rp) with _ | e2 <;>
      simp [checkEvent, eventOps, checkOps, h1, h2]

theorem compare_commonE_spec (oracle : FsOp → Option FsError)
    (walk : EntryList) (cds : List String) (rc : EntryList)
    (src repl : List String)
    (hQ : ∀ n a, walk.binds n a → ∀ (b : Entry) (src2 repl2 : List String),
      (compare_foldersE oracle a b src2 repl2).2.1 =
        (runUntilFail oracle (compare_folders a b src2 repl2).2.1).1 ∧
      (compare_foldersE oracle a b src2 repl2).2.2.2 =
        (runUntilFail oracle (compare_folders a b src2 repl2).2.1).2 ∧
      ((runUntilFail oracle (compare_folders a b src2 repl2).2.1).2 = none →
        compare_foldersE oracle a b src2 repl2 =
          ((compare_folders a b src2 repl2).1,
           (compare_folders a b src2 repl2).2.1,
           (compare_folders a b src2 repl2).2.2, none))) :
    (compare_commonE oracle walk cds rc src repl).2.1 =
      (runUntilFail oracle (compare_common walk cds rc src repl).2.1).1 ∧
    (compare_commonE oracle walk cds rc src repl).2.2.2 =
      (runUntilFail oracle (compare_common walk cds rc src repl).2.1).2 ∧
    ((runUntilFail oracle (compare_common walk cds rc src repl).2.1).2 =
        none →
      compare_commonE oracle walk cds rc src repl =
        ((compare_common walk cds rc src repl).1,
         (compare_common walk cds rc src repl).2.1,
         (compare_common walk cds rc src repl).2.2, none)) := by
  induction walk with
  | nil => exact ⟨rfl, rfl, fun _ => rfl⟩
  | cons n a tl ih =>
    have ihtl := ih (fun m e hb => hQ m e (Or.inr hb))
    by_cases hc : n ∈ cds
    · have hhead := hQ n a (Or.inl ⟨rfl, rfl⟩)
        ((rc.lookup n).getD (.dir .nil)) (src ++ [n]) (repl ++ [n])
      rw [compare_common_cons_mem _ _ _ _ _ _ _ hc]
      rcases hE : (compare_foldersE oracle a ((rc.lookup n).getD (.dir .nil))
          (src ++ [n]) (repl ++ [n])).2.2.2 with _ | err
      · have h1ok : (runUntilFail oracle (compare_folders a
            ((rc.lookup n).getD (.dir .nil)) (src ++ [n])
            (repl ++ [n])).2.1).2 = none := by
          rw [← hhead.2.1, hE]
        have hfull := hhead.2.2 h1ok
        have happ := @runUntilFail_append_ok oracle
          ((compare_folders a ((rc.lookup n).getD (.dir .nil))
            (src ++ [n]) (repl ++ [n])).2.1)
          ((compare_common tl cds rc src repl).2.1) h1ok
        simp only [compare_commonE, if_pos hc, hE]
        refine ⟨?_, ?_, ?_⟩
        · simp only [happ, hfull]
          rw [ihtl.1]
        · simp only [happ, hfull]
          exact ihtl.2.1
        · intro hok
          rw [happ] at hok
          simp only at hok
          have h3 := ihtl.2.2 hok
          simp only [hfull, h3]
      · have herr : (runUntilFail oracle (compare_folders a
            ((rc.lookup n).getD (.dir .nil)) (src ++ [n])
            (repl ++ [n])).2.1).2 = some err := by
          rw [← hhead.2.1, hE]
        have happ := runUntilFail_append_err
          ((compare_common tl cds rc src repl).2.1) herr
        simp only [compare_commonE, if_pos hc, hE]
        refine ⟨?_, ?_, ?_⟩
        · rw [happ, ← hhead.1]
        · rw [happ, herr]
        · intro hok
          rw [happ, herr] at hok
          cases hok
    · rw [compare_common_cons_not_mem _ _ _ _ _ _ _ hc]
      simp only [compare_commonE, if_neg hc]
      exact ihtl

end SyncFolders

namespace SyncFolders

/-- The error-oracle run of a directory pair refines the pure run: its
event trace is the truncation of the pure trace at the first failing
event, its error is the truncation's error, and a clean run reproduces the
pure result exactly. -/
theorem compare_foldersE_dir_spec (oracle : FsOp → Option FsError)
    (sc rc : EntryList) (src repl : List String)
    (hQ : ∀ n a, sc.binds n a → ∀ (b : Entry) (src2 repl2 : List String),
      (compare_foldersE oracle a b src2 repl2).2.1 =
        (runUntilFail oracle (compare_folders a b src2 repl2).2.1).1 ∧
      (compare_foldersE oracle a b src2 repl2).2.2.2 =
        (runUntilFail oracle (compare_folders a b src2 repl2).2.1).2 ∧
      ((runUntilFail oracle (compare_folders a b src2 repl2).2.1).2 = none →
        compare_foldersE oracle a b src2 repl2 =
          ((compare_folders a b src2 repl2).1,
           (compare_folders a b src2 repl2).2.1,
           (compare_folders a b src2 repl2).2.2, none))) :
    (compare_foldersE oracle (.dir sc) (.dir rc) src repl).2.1 =
      (runUntilFail oracle
        (compare_folders (.dir sc) (.dir rc) src repl).2.1).1 ∧
    (compare_foldersE oracle (.dir sc) (.dir rc) src repl).2.2.2 =
      (runUntilFail oracle
        (compare_folders (.dir sc) (.dir rc) src repl).2.1).2 ∧
    ((runUntilFail oracle
        (compare_folders (.dir sc) (.dir rc) src repl).2.1).2 = none →
      compare_foldersE oracle (.dir sc) (.dir rc) src repl =
        ((compare_folders (.dir sc) (.dir rc) src repl).1,
         (compare_folders (.dir sc) (.dir rc) src repl).2.1,
         (compare_folders (.dir sc) (.dir rc) src repl).2.2, none)) := by
  have hs1 := compare_commonE_spec oracle sc (common_dirs sc rc) rc src repl hQ
  have hs2 := copy_filesE_spec oracle (left_only sc rc) sc src repl true
  have hs4 := copy_filesE_spec oracle (diff_files sc rc) sc src repl false
  simp only [compare_folders_dir, phase1, rcAfter1, phase2, rcAfter2, phase3,
    rcAfter3, phase4, rcAfter4]
  rcases ho1 : oracle (.listdir src) with _ | err0
  · rcases ho2 : oracle (.listdir repl) with _ | err0
    · have hv : checkEvent oracle (Event.visit src repl) = none := by
        simp only [checkEvent_visit, ho1, ho2]
      have hs3 := delete_filesE_spec oracle (right_only sc rc)
        ((rc.setAll
            (compare_common sc (common_dirs sc rc) rc src repl).1).setAll
          (copy_files (left_only sc rc) sc src repl true).1) repl
      rcases hE1 : (compare_commonE oracle sc (common_dirs sc rc) rc
          src repl).2.2.2 with _ | err1
      · have h1ok : (runUntilFail oracle (compare_common sc
            (common_dirs sc rc) rc src repl).2.1).2 = none := by
          rw [← hs1.2.1]; exact hE1
        have hfull1 := hs1.2.2 h1ok
        rcases hE2 : (copy_filesE oracle (left_only sc rc) sc src repl
            true).2.2.2 with _ | err2
        · have h2ok : (runUntilFail oracle (copy_files (left_only sc rc)
              sc src repl true).2.1).2 = none := by
            rw [← hs2.2.1]; exact hE2
          have hfull2 := hs2.2.2 h2ok
          rcases hE3 : (delete_filesE oracle (right_only sc rc)
              ((rc.setAll (compare_common sc (common_dirs sc rc) rc
                  src repl).1).setAll
                (copy_files (left_only sc rc) sc src repl true).1)
              repl).2.2.2 with _ | err3
          · have h3ok : (runUntilFail oracle (delete_files
                (right_only sc rc)
                ((rc.setAll (compare_common sc (common_dirs sc rc) rc
                    src repl).1).setAll
                  (copy_files (left_only sc rc) sc src repl true).1)
                repl).1).2 = none := by
              rw [← hs3.2.1]; exact hE3
            have hfull3 := hs3.2.2 h3ok
            rw [List.append_assoc, List.append_assoc,
              runUntilFail_cons_ok _ hv, runUntilFail_append_ok _ h1ok,
              runUntilFail_append_ok _ h2ok, runUntilFail_append_ok _ h3ok]
            refine ⟨?_, ?_, ?_⟩
            · simp only [compare_foldersE, ho1, ho2, hfull1, hfull2, hfull3,
                hs4.1, List.append_assoc]
            · simp only [compare_foldersE, ho1, ho2, hfull1, hfull2, hfull3]
              exact hs4.2.1
            · intro hok
              simp only at hok
              have hfull4 := hs4.2.2 hok
              simp only [compare_foldersE, ho1, ho2, hfull1, hfull2, hfull3,
                hfull4, removeAll_filter_isSome, List.append_assoc]
          · have herr3 : (runUntilFail oracle (delete_files
                (right_only sc rc)
                ((rc.setAll (compare_common sc (common_dirs sc rc) rc
                    src repl).1).setAll
                  (copy_files (left_only sc rc) sc src repl true).1)
                repl).1).2 = some err3 := by
              rw [← hs3.2.1]; exact hE3
            rw [List.append_assoc, List.append_assoc,
              runUntilFail_cons_ok _ hv, runUntilFail_append_ok _ h1ok,
              runUntilFail_append_ok _ h2ok, runUntilFail_append_err _ herr3]
            refine ⟨?_, ?_, ?_⟩
            · simp only [compare_foldersE, ho1, ho2, hfull1, hfull2, hE3,
                hs3.1, List.append_assoc]
            · simp only [compare_foldersE, ho1, ho2, hfull1, hfull2, hE3,
                herr3]
            · intro hok
              simp only at hok
              rw [herr3] at hok
              cases hok
        · have herr2 : (runUntilFail oracle (copy_files (left_only sc rc)
              sc src repl true).2.1).2 = some err2 := by
            rw [← hs2.2.1]; exact hE2
          rw [List.append_assoc, List.append_assoc,
            runUntilFail_cons_ok _ hv, runUntilFail_append_ok _ h1ok,
            runUntilFail_append_err _ herr2]
          refine ⟨?_, ?_, ?_⟩
          · simp only [compare_foldersE, ho1, ho2, hfull1, hE2, hs2.1]
          · simp only [compare_foldersE, ho1, ho2, hfull1, hE2, herr2]
          · intro hok
            simp only at hok
            rw [herr2] at hok
            cases hok
      · have herr1 : (runUntilFail oracle (compare_common sc
            (common_dirs sc rc) rc src repl).2.1).2 = some err1 := by
          rw [← hs1.2.1]; exact hE1
        rw [List.append_assoc, List.append_assoc,
          runUntilFail_cons_ok _ hv, runUntilFail_append_err _ herr1]
        refine ⟨?_, ?_, ?_⟩
        · simp only [compare_foldersE, ho1, ho2, hE1, hs1.1]
        · simp only [compare_foldersE, ho1, ho2, hE1, herr1]
        · intro hok
          simp only at hok
          rw [herr1] at hok
          cases hok
    · have hv : checkEvent oracle (Event.visit src repl) = some err0 := by
        simp only [checkEvent_visit, ho1, ho2]
      rw [runUntilFail_cons_err _ hv]
      refine ⟨?_, ?_, ?_⟩
      · simp only [compare_foldersE, ho1, ho2]
      · simp only [compare_foldersE, ho1, ho2]
      · intro hok
        cases hok
  · have hv : checkEvent oracle (Event.visit src repl) = some err0 := by
      simp only [checkEvent_visit, ho1]
    rw [runUntilFail_cons_err _ hv]
    refine ⟨?_, ?_, ?_⟩
    · simp only [compare_foldersE, ho1]
    · simp only [compare_foldersE, ho1]
    · intro hok
      cases hok

end SyncFolders

namespace SyncFolders

/-- The full refinement between the error-oracle run and the pure run, by
strong induction over the source tree. -/
theorem compare_foldersE_spec (oracle : FsOp → Option FsError) :
    ∀ (s r : Entry) (src repl : List String),
      (compare_foldersE oracle s r src repl).2.1 =
        (runUntilFail oracle (compare_folders s r src repl).2.1).1 ∧
      (compare_foldersE oracle s r src repl).2.2.2 =
        (runUntilFail oracle (compare_folders s r src repl).2.1).2 ∧
      ((runUntilFail oracle (compare_folders s r src repl).2.1).2 = none →
        compare_foldersE oracle s r src repl =
          ((compare_folders s r src repl).1,
           (compare_folders s r src repl).2.1,
           (compare_folders s r src repl).2.2, none)) := by
  intro s
  induction s using Entry.binds_induction with
  | step e IH =>
    intro r src repl
    rcases e with ⟨c, mt⟩ | sc
    · cases r <;> exact ⟨rfl, rfl, fun _ => rfl⟩
    rcases r with ⟨c, mt⟩ | rc
    · exact ⟨rfl, rfl, fun _ => rfl⟩
    · exact compare_foldersE_dir_spec oracle sc rc src repl
        (fun n a hb => IH sc n a rfl hb)

/-- Claim C7: every filesystem error raised during a run is fatal and
propagates out of the whole recursion: the events the faulty run performs
are exactly the longest error-free initial segment of the pure run's
event sequence (no action is retried or skipped, and nothing after the
failing action happens — in particular no rollback), the error reported
at top level is the error of the first failing event, and when no event
fails the faulty run coincides with the pure run in replica, trace and
counters. -/
theorem claim_C7_fatal_propagation (oracle : FsOp → Option FsError)
    (s r : Entry) (src repl : List String) :
    (compare_foldersE oracle s r src repl).2.1 =
      (runUntilFail oracle (compare_folders s r src repl).2.1).1 ∧
    (compare_foldersE oracle s r src repl).2.2.2 =
      (runUntilFail oracle (compare_folders s r src repl).2.1).2 ∧
    ((runUntilFail oracle (compare_folders s r src repl).2.1).2 = none →
      compare_foldersE oracle s r src repl =
        ((compare_folders s r src repl).1,
         (compare_folders s r src repl).2.1,
         (compare_folders s r src repl).2.2, none)) :=
  compare_foldersE_spec oracle s r src repl

/-- Claim C7, witness: on a source holding files "a" and "b" and an empty
replica, an oracle that fails the copy of "a" truncates the run right
before that copy — the copy of "b" is silently skipped and the error
surfaces at top level — while the all-clear oracle reproduces the pure
run with a `none` error. -/
theorem claim_C7_witness :
    (compare_foldersE
        (fun op => if op = FsOp.mutate (MutOp.copy2 ["S", "a"] ["R"])
          then some FsError.ioError else none)
        (.dir (.cons "a" (.file [1] 0) (.cons "b" (.file [2] 0) .nil)))
        (.dir .nil) ["S"] ["R"]).2.1 =
      [Event.visit ["S"] ["R"]] ∧
    (compare_foldersE
        (fun op => if op = FsOp.mutate (MutOp.copy2 ["S", "a"] ["R"])
          then some FsError.ioError else none)
        (.dir (.cons "a" (.file [1] 0) (.cons "b" (.file [2] 0) .nil)))
        (.dir .nil) ["S"] ["R"]).2.2.2 = some FsError.ioError ∧
    compare_foldersE (fun _ => none)
        (.dir (.cons "a" (.file [1] 0) (.cons "b" (.file [2] 0) .nil)))
        (.dir .nil) ["S"] ["R"] =
      ((compare_folders
          (.dir (.cons "a" (.file [1] 0) (.cons "b" (.file [2] 0) .nil)))
          (.dir .nil) ["S"] ["R"]).1,
       (compare_folders
          (.dir (.cons "a" (.file [1] 0) (.cons "b" (.file [2] 0) .nil)))
          (.dir .nil) ["S"] ["R"]).2.1,
       (compare_folders
          (.dir (.cons "a" (.file [1] 0) (.cons "b" (.file [2] 0) .nil)))
          (.dir .nil) ["S"] ["R"]).2.2, none) := by
  refine ⟨?_, ?_, ?_⟩
  · have h := claim_C7_fatal_propagation
      (fun op => if op = FsOp.mutate (MutOp.copy2 ["S", "a"] ["R"])
        then some FsError.ioError else none)
      (.dir (.cons "a" (.file [1] 0) (.cons "b" (.file [2] 0) .nil)))
      (.dir .nil) ["S"] ["R"]
    rw [h.1]
    decide
  · have h := claim_C7_fatal_propagation
      (fun op => if op = FsOp.mutate (MutOp.copy2 ["S", "a"] ["R"])
        then some FsError.ioError else none)
      (.dir (.cons "a" (.file [1] 0) (.cons "b" (.file [2] 0) .nil)))
      (.dir .nil) ["S"] ["R"]
    rw [h.2.1]
    decide
  · have h := claim_C7_fatal_propagation (fun _ => none)
      (.dir (.cons "a" (.file [1] 0) (.cons "b" (.file [2] 0) .nil)))
      (.dir .nil) ["S"] ["R"]
    exact h.2.2 (by decide)

end SyncFolders
